import Mathlib

/-!
# Verification of the maze A* path finder

Shallow embedding of the repository's A* search (`lib/astar.ts`) over a 2D
occupancy grid, together with proofs of the specified properties: optimality
of returned paths, path validity, behaviour on blocked endpoints, totality,
visit-callback semantics, frontier/finalized-set invariants, determinism,
and bounds-safety of neighbour enumeration.

Coordinates are pairs of naturals (the specification restricts attention to
in-bounds, non-negative integer coordinates).  A grid is a list of rows of
cell values; value `0` is passable, anything else is a wall.  The source
keys its closed set by the string `x + ',' + y`; since that keying is
injective on coordinate pairs, the embedding uses coordinate equality
directly.  The `parent` back-pointers of the source are embedded as the
accumulated reversed path stored in each node: a parent is always an
already-finalized (hence never-again-mutated) node, so the chain of parents
at any moment is exactly the stored list.
-/

namespace Maze

/-- A coordinate `[x, y]`: `x` indexes the row, `y` the column. -/
abbrev Point : Type := Nat × Nat

/-- A 2D grid of cell values; `0` is passable, non-zero is a wall. -/
abbrev Grid : Type := List (List Nat)

/-- Manhattan distance `|x1 - x2| + |y1 - y2|` (source: `heuristic`). -/
def heuristic (a b : Point) : Nat :=
  ((a.1 : Int) - (b.1 : Int)).natAbs + ((a.2 : Int) - (b.2 : Int)).natAbs

/-- The test `grid[x][y] === 0`: the cell at row `x`, column `y` is present
and holds `0`.  In the source, reading a missing column of an existing row
yields `undefined`, which fails `=== 0`; this is modelled by the `none`
branches. -/
def cellZero (grid : Grid) (x y : Nat) : Bool :=
  match grid[x]? with
  | some row =>
      match row[y]? with
      | some v => v == 0
      | none => false
  | none => false

/-- Valid orthogonal neighbours of `p` (source: `neighbors`), in source
order Up, Down, Left, Right.  The column guard of the Right move uses the
length of row 0, exactly as the source does. -/
def neighbors (p : Point) (grid : Grid) : List Point :=
  (if 0 < p.1 ∧ cellZero grid (p.1 - 1) p.2 = true then [((p.1 - 1 : Nat), p.2)] else []) ++
  (if p.1 < grid.length - 1 ∧ cellZero grid (p.1 + 1) p.2 = true then [((p.1 + 1 : Nat), p.2)] else []) ++
  (if 0 < p.2 ∧ cellZero grid p.1 (p.2 - 1) = true then [(p.1, (p.2 - 1 : Nat))] else []) ++
  (if p.2 < (grid.headD []).length - 1 ∧ cellZero grid p.1 (p.2 + 1) = true then [(p.1, (p.2 + 1 : Nat))] else [])

/-- The (row, column) pairs read by `neighbors`, with the guards the source
places in front of each read.  Used to discuss bounds-safety of the reads.  -/
def neighborReads (p : Point) (grid : Grid) : List (Nat × Nat) :=
  (if 0 < p.1 then [((p.1 - 1 : Nat), p.2)] else []) ++
  (if p.1 < grid.length - 1 then [((p.1 + 1 : Nat), p.2)] else []) ++
  (if 0 < p.2 then [(p.1, (p.2 - 1 : Nat))] else []) ++
  (if p.2 < (grid.headD []).length - 1 then [(p.1, (p.2 + 1 : Nat))] else [])

/-- Internal node of the search (source: `Node`).  The source's optional
`parent` pointer is embedded as `rpath`: this node's coordinate followed by
the coordinates of the parent chain (parents are finalized nodes and are
never mutated after being linked, so the chain is a fixed list). -/
structure Node where
  point : Point
  g : Nat
  h : Nat
  f : Nat
  rpath : List Point
deriving DecidableEq

/-- Stable insertion of a node into a list sorted by ascending `f`:
the node goes in front of the first member whose `f` is not smaller. -/
def insertByF (n : Node) : List Node → List Node
  | [] => [n]
  | m :: ms => if n.f ≤ m.f then n :: m :: ms else m :: insertByF n ms

/-- `openSet.sort((a, b) => a.f - b.f)`: JavaScript's sort is stable, and a
stable sort by ascending `f` is unique, so insertion sort embeds it. -/
def sortByF (l : List Node) : List Node := l.foldr insertByF []

/-- In-place mutation of the first list member at coordinate `p`
(the source mutates the node object found by `openSet.find`). -/
def replaceFirst (p : Point) (upd : Node → Node) : List Node → List Node
  | [] => []
  | n :: ns => if n.point = p then upd n :: ns else n :: replaceFirst p upd ns

/-- One iteration of the source's `for (const nbr of nbrs)` body: skip
finalized coordinates, then either push a fresh node at the end of the open
set or lower the recorded cost of the existing entry in place. -/
def relaxOne (goal : Point) (current : Node) (closed : List Point)
    (openSet : List Node) (nbr : Point) : List Node :=
  if nbr ∈ closed then openSet
  else
    let gScore := current.g + 1
    match openSet.find? (fun n => n.point == nbr) with
    | none =>
        let hScore := heuristic nbr goal
        openSet ++ [{ point := nbr, g := gScore, h := hScore, f := gScore + hScore,
                      rpath := nbr :: current.rpath }]
    | some openNode =>
        if gScore < openNode.g then
          replaceFirst nbr
            (fun n => { n with g := gScore, f := gScore + n.h, rpath := nbr :: current.rpath })
            openSet
        else openSet

/-- Result of one iteration of the source's main `while` loop. -/
inductive StepOut where
  | exhausted : StepOut
  | found : List Point → Point → StepOut
  | next : List Node → List Point → Point → StepOut
deriving DecidableEq

/-- One iteration of the main loop: sort the open set by `f`, shift the
head, finalize its coordinate (recording the visit), return the
reconstructed path if it is the goal, and otherwise relax the neighbours.  -/
def stepA (grid : Grid) (goal : Point) (openSet : List Node) (closed : List Point) : StepOut :=
  match sortByF openSet with
  | [] => .exhausted
  | current :: rest =>
      let closed' := current.point :: closed
      if current.point = goal then
        .found current.rpath.reverse current.point
      else
        .next ((neighbors current.point grid).foldl (relaxOne goal current closed') rest)
          closed' current.point

/-- Outcome of a search run.  `fuelOut` marks exhaustion of the fuel that
makes the embedded loop structurally recursive; it is proved unreachable. -/
inductive AOut where
  | somePath : List Point → AOut
  | noPath : AOut
  | fuelOut : AOut
deriving DecidableEq

/-- The main loop, collecting the finalized coordinates in order. -/
def loopVis (grid : Grid) (goal : Point) : Nat → List Node → List Point → AOut × List Point
  | 0, _, _ => (.fuelOut, [])
  | fuel + 1, openSet, closed =>
      match stepA grid goal openSet closed with
      | .exhausted => (.noPath, [])
      | .found p v => (.somePath p, [v])
      | .next os c v =>
          let r := loopVis grid goal fuel os c
          (r.1, v :: r.2)

/-- The main loop threading an arbitrary `onVisit` callback as a state
transformer, invoked exactly where the source invokes `onVisit`. -/
def loopCb {σ : Type} (cb : Point → σ → σ) (grid : Grid) (goal : Point) :
    Nat → List Node → List Point → σ → AOut × σ
  | 0, _, _, st => (.fuelOut, st)
  | fuel + 1, openSet, closed, st =>
      match stepA grid goal openSet closed with
      | .exhausted => (.noPath, st)
      | .found p v => (.somePath p, cb v st)
      | .next os c v => loopCb cb grid goal fuel os c (cb v st)

/-- Total number of cells of the grid (sum of row lengths). -/
def cellCount (grid : Grid) : Nat := (grid.map List.length).sum

/-- Fuel that is proved sufficient for the loop to run to completion. -/
def totalFuel (grid : Grid) : Nat := cellCount grid + 2

/-- The initial node for `start` (g = 0, f = h). -/
def mkStart (start goal : Point) : Node :=
  { point := start, g := 0, h := heuristic start goal, f := heuristic start goal,
    rpath := [start] }

/-- A full run: outcome together with the finalized coordinates in order
(the sequence of `onVisit` invocations). -/
def astarRun (grid : Grid) (start goal : Point) : AOut × List Point :=
  loopVis grid goal (totalFuel grid) [mkStart start goal] []

/-- A full run with an explicit `onVisit` callback threaded through. -/
def astarCb {σ : Type} (cb : Point → σ → σ) (grid : Grid) (start goal : Point) (st : σ) :
    AOut × σ :=
  loopCb cb grid goal (totalFuel grid) [mkStart start goal] [] st

/-- The source's `astar`: a path from start to goal, or `none`. -/
def astar (grid : Grid) (start goal : Point) : Option (List Point) :=
  match (astarRun grid start goal).1 with
  | .somePath p => some p
  | _ => none

/-! ## Specification-level notions -/

/-- The code's step relation: `q` is returned by `neighbors p grid`. -/
def stepTo (grid : Grid) (p q : Point) : Prop := q ∈ neighbors p grid

/-- A walk along the code's step relation from `s` to `t`. -/
def ValidPath (grid : Grid) (s t : Point) (l : List Point) : Prop :=
  l.head? = some s ∧ l.getLast? = some t ∧ List.Chain' (stepTo grid) l

/-- `t` is reachable from `s` in exactly `n` steps of the code's relation. -/
def reach (grid : Grid) (s t : Point) (n : Nat) : Prop :=
  ∃ l, ValidPath grid s t l ∧ l.length = n + 1

/-- `d` is the least number of steps from `s` to `t`. -/
def isDist (grid : Grid) (s t : Point) (d : Nat) : Prop :=
  reach grid s t d ∧ ∀ m, reach grid s t m → d ≤ m

/-- Two cells differing by exactly one unit along exactly one axis. -/
def orthAdj (p q : Point) : Prop :=
  (p.1 = q.1 ∧ (p.2 + 1 = q.2 ∨ q.2 + 1 = p.2)) ∨
  (p.2 = q.2 ∧ (p.1 + 1 = q.1 ∨ q.1 + 1 = p.1))

/-- The cell at `p` is present in its row and passable (value `0`). -/
def pointOK (grid : Grid) (p : Point) : Prop := cellZero grid p.1 p.2 = true

/-- A specification-level walk: orthogonal unit steps through passable
cells, from `s` to `t` inclusive. -/
def SpecWalk (grid : Grid) (s t : Point) (l : List Point) : Prop :=
  l.head? = some s ∧ l.getLast? = some t ∧ List.Chain' orthAdj l ∧ ∀ p ∈ l, pointOK grid p

/-- `t` can be reached from `s` by `n` orthogonal unit steps through
passable cells. -/
def SpecSteps (grid : Grid) (s t : Point) (n : Nat) : Prop :=
  ∃ l, SpecWalk grid s t l ∧ l.length = n + 1

/-- All rows have the length of row 0. -/
def Rectangular (grid : Grid) : Prop :=
  ∀ row ∈ grid, row.length = (grid.headD []).length

instance (grid : Grid) (p : Point) : Decidable (pointOK grid p) :=
  inferInstanceAs (Decidable (cellZero grid p.1 p.2 = true))

instance (p q : Point) : Decidable (orthAdj p q) :=
  inferInstanceAs (Decidable (_ ∨ _))

instance (grid : Grid) : Decidable (Rectangular grid) :=
  inferInstanceAs (Decidable (∀ row ∈ grid, row.length = (grid.headD []).length))

/-- Well-formedness of a search node: its stored path is a code-level walk
from `start` ending at the node's coordinate, its `g` is the step count of
that walk, `h` is the Manhattan estimate to the goal and `f = g + h`. -/
def nodeWF (grid : Grid) (start goal : Point) (n : Node) : Prop :=
  n.rpath.head? = some n.point ∧ n.rpath.getLast? = some start ∧
  List.Chain' (fun a b => stepTo grid b a) n.rpath ∧
  n.rpath.length = n.g + 1 ∧ n.h = heuristic n.point goal ∧ n.f = n.g + n.h

/-- The frontier/finalized disjointness invariant of claim C8: no
coordinate is both in the open set and the closed set, and the open set
holds at most one node per coordinate. -/
def DisjInv (openSet : List Node) (closed : List Point) : Prop :=
  (∀ n ∈ openSet, n.point ∉ closed) ∧ (openSet.map Node.point).Nodup

/-! ## Properties of the frontier sort -/

theorem insertByF_perm (n : Node) (l : List Node) :
    List.Perm (insertByF n l) (n :: l) := by
  induction l with
  | nil => exact List.Perm.refl _
  | cons m ms ih =>
      unfold insertByF
      by_cases hf : n.f ≤ m.f
      · rw [if_pos hf]
      · rw [if_neg hf]
        exact (ih.cons m).trans (List.Perm.swap n m ms)

theorem sortByF_perm (l : List Node) : List.Perm (sortByF l) l := by
  induction l with
  | nil => exact List.Perm.refl _
  | cons n ns ih => exact (insertByF_perm n (sortByF ns)).trans (ih.cons n)

theorem mem_sortByF {l : List Node} {n : Node} : n ∈ sortByF l ↔ n ∈ l :=
  (sortByF_perm l).mem_iff

theorem insertByF_sorted (n : Node) (l : List Node)
    (hl : l.Pairwise (fun a b => a.f ≤ b.f)) :
    (insertByF n l).Pairwise (fun a b => a.f ≤ b.f) := by
  induction l with
  | nil => simp [insertByF]
  | cons m ms ih =>
      rw [List.pairwise_cons] at hl
      unfold insertByF
      by_cases hf : n.f ≤ m.f
      · rw [if_pos hf]
        refine List.Pairwise.cons ?_ (List.pairwise_cons.mpr hl)
        intro b hb
        rcases List.mem_cons.mp hb with hb | hb
        · exact hb ▸ hf
        · exact le_trans hf (hl.1 b hb)
      · rw [if_neg hf]
        refine List.Pairwise.cons ?_ (ih hl.2)
        intro b hb
        have hb' : b ∈ n :: ms := (insertByF_perm n ms).mem_iff.mp hb
        rcases List.mem_cons.mp hb' with hb' | hb'
        · exact hb' ▸ le_of_lt (lt_of_not_le hf)
        · exact hl.1 b hb'

theorem sortByF_sorted (l : List Node) :
    (sortByF l).Pairwise (fun a b => a.f ≤ b.f) := by
  induction l with
  | nil => simp [sortByF]
  | cons n ns ih => exact insertByF_sorted n (sortByF ns) ih

/-- The head of the sorted open set has minimal combined priority. -/
theorem sortByF_head_le {l : List Node} {c : Node} {r : List Node}
    (h : sortByF l = c :: r) {n : Node} (hn : n ∈ l) : c.f ≤ n.f := by
  have hp := sortByF_sorted l
  rw [h] at hp
  have hmem : n ∈ c :: r := h ▸ mem_sortByF.mpr hn
  rcases List.mem_cons.mp hmem with hmem | hmem
  · exact hmem ▸ le_refl _
  · exact (List.pairwise_cons.mp hp).1 n hmem

/-- Stability of the sort: members with any given combined priority keep
their relative order (JavaScript's `Array.prototype.sort` is stable). -/
theorem insertByF_filter (n : Node) (l : List Node) (k : Nat) :
    (insertByF n l).filter (fun m => m.f == k) =
      if n.f == k then n :: l.filter (fun m => m.f == k)
      else l.filter (fun m => m.f == k) := by
  induction l with
  | nil => by_cases hk : n.f == k <;> simp [insertByF, List.filter, hk]
  | cons m ms ih =>
      unfold insertByF
      by_cases hf : n.f ≤ m.f
      · rw [if_pos hf]
        by_cases hk : n.f == k <;> simp [List.filter, hk]
      · rw [if_neg hf]
        by_cases hk : n.f == k
        · have hmk : (m.f == k) = false := by
            have h1 : n.f = k := by simpa using hk
            have h2 : m.f ≠ k := by omega
            simpa using h2
          simp [List.filter, hmk, ih, hk]
        · by_cases hmk : m.f == k <;> simp [List.filter, hmk, ih, hk]

theorem sortByF_filter (l : List Node) (k : Nat) :
    (sortByF l).filter (fun m => m.f == k) = l.filter (fun m => m.f == k) := by
  induction l with
  | nil => rfl
  | cons n ns ih =>
      show (insertByF n (sortByF ns)).filter _ = _
      rw [insertByF_filter]
      by_cases hk : n.f == k <;> simp [List.filter, hk, ih]

/-! ## Properties of the in-place update -/

theorem replaceFirst_map_point (p : Point) (upd : Node → Node) (l : List Node)
    (h : ∀ n, (upd n).point = n.point) :
    (replaceFirst p upd l).map Node.point = l.map Node.point := by
  induction l with
  | nil => rfl
  | cons m ms ih =>
      unfold replaceFirst
      by_cases hm : m.point = p
      · rw [if_pos hm]; simp [h m]
      · rw [if_neg hm]; simp [ih]

theorem mem_replaceFirst {p : Point} {upd : Node → Node} {l : List Node} {n' : Node}
    (h : n' ∈ replaceFirst p upd l) : n' ∈ l ∨ ∃ n ∈ l, n.point = p ∧ n' = upd n := by
  induction l with
  | nil => simp [replaceFirst] at h
  | cons m ms ih =>
      unfold replaceFirst at h
      by_cases hm : m.point = p
      · rw [if_pos hm] at h
        rcases List.mem_cons.mp h with h | h
        · exact Or.inr ⟨m, List.mem_cons_self m ms, hm, h⟩
        · exact Or.inl (List.mem_cons_of_mem m h)
      · rw [if_neg hm] at h
        rcases List.mem_cons.mp h with h | h
        · exact Or.inl (h ▸ List.mem_cons_self m ms)
        · rcases ih h with h | ⟨n, hn, hnp, hn'⟩
          · exact Or.inl (List.mem_cons_of_mem m h)
          · exact Or.inr ⟨n, List.mem_cons_of_mem m hn, hnp, hn'⟩

theorem replaceFirst_exists {p : Point} {upd : Node → Node} {l : List Node} {n : Node}
    (hn : n ∈ l) :
    ∃ n' ∈ replaceFirst p upd l, n' = n ∨ (n.point = p ∧ n' = upd n) := by
  induction l with
  | nil => simp at hn
  | cons m ms ih =>
      unfold replaceFirst
      by_cases hm : m.point = p
      · rw [if_pos hm]
        rcases List.mem_cons.mp hn with hn | hn
        · exact ⟨upd m, List.mem_cons_self _ _, Or.inr ⟨hn ▸ hm, hn ▸ rfl⟩⟩
        · exact ⟨n, List.mem_cons_of_mem _ hn, Or.inl rfl⟩
      · rw [if_neg hm]
        rcases List.mem_cons.mp hn with hn | hn
        · exact ⟨m, List.mem_cons_self _ _, Or.inl hn.symm⟩
        · rcases ih hn with ⟨n', hn', hcase⟩
          exact ⟨n', List.mem_cons_of_mem _ hn', hcase⟩

/-! ## Generic list facts -/

theorem length_le_of_nodup_subset {α : Type} [DecidableEq α] {l₁ l₂ : List α}
    (hn : l₁.Nodup) (hs : l₁ ⊆ l₂) : l₁.length ≤ l₂.length := by
  calc l₁.length = l₁.toFinset.card := (List.toFinset_card_of_nodup hn).symm
    _ ≤ l₂.toFinset.card := Finset.card_le_card (fun a ha => by
        rw [List.mem_toFinset] at ha ⊢; exact hs ha)
    _ ≤ l₂.length := l₂.toFinset_card_le

theorem mem_ite_singleton {α : Type} {c : Prop} [Decidable c] {a q : α} :
    q ∈ (if c then [a] else []) ↔ c ∧ q = a := by
  split_ifs with h <;> simp [h]

theorem chain'_mem {α : Type} {R : α → α → Prop} {l : List α} (h : List.Chain' R l)
    {x : α} (hx : x ∈ l) : l.head? = some x ∨ ∃ a ∈ l, R a x := by
  induction l with
  | nil => cases hx
  | cons a tl ih =>
      rcases List.mem_cons.mp hx with rfl | hx'
      · exact Or.inl rfl
      · cases tl with
        | nil => cases hx'
        | cons b tl' =>
            have h' : List.Chain' R (b :: tl') := (List.chain'_cons'.mp h).2
            rcases ih h' hx' with hh | ⟨c, hc, hR⟩
            · have hxb : x = b := by simpa using hh.symm
              refine Or.inr ⟨a, List.mem_cons_self _ _, ?_⟩
              have := (List.chain'_cons'.mp h).1 b (by simp)
              exact hxb ▸ this
            · exact Or.inr ⟨c, List.mem_cons_of_mem _ hc, hR⟩

theorem chain'_imp_mem {α : Type} {R S : α → α → Prop} :
    ∀ {l : List α}, (∀ a b, a ∈ l → b ∈ l → R a b → S a b) → List.Chain' R l →
      List.Chain' S l := by
  intro l
  induction l with
  | nil => intro _ _; simp
  | cons a tl ih =>
      intro himp hc
      cases tl with
      | nil => simp
      | cons b tl' =>
          rw [List.chain'_cons] at hc ⊢
          refine ⟨himp a b (by simp) (by simp) hc.1, ?_⟩
          exact ih (fun x y hx hy => himp x y (List.mem_cons_of_mem _ hx)
            (List.mem_cons_of_mem _ hy)) hc.2

/-! ## Neighbour enumeration -/

theorem mem_neighbors {grid : Grid} {p q : Point} :
    q ∈ neighbors p grid ↔
      ((0 < p.1 ∧ cellZero grid (p.1 - 1) p.2 = true ∧ q = (p.1 - 1, p.2)) ∨
       (p.1 < grid.length - 1 ∧ cellZero grid (p.1 + 1) p.2 = true ∧ q = (p.1 + 1, p.2)) ∨
       (0 < p.2 ∧ cellZero grid p.1 (p.2 - 1) = true ∧ q = (p.1, p.2 - 1)) ∨
       (p.2 < (grid.headD []).length - 1 ∧ cellZero grid p.1 (p.2 + 1) = true ∧
         q = (p.1, p.2 + 1))) := by
  simp only [neighbors, List.mem_append, mem_ite_singleton]
  tauto

theorem cellZero_iff {grid : Grid} {x y : Nat} :
    cellZero grid x y = true ↔ ∃ row, grid[x]? = some row ∧ row[y]? = some 0 := by
  unfold cellZero
  rcases hg : grid[x]? with _ | row
  · simp
  · rcases hr : row[y]? with _ | v
    · simp [hr]
    · simp [hr]

theorem pointOK_of_mem_neighbors {grid : Grid} {p q : Point}
    (h : q ∈ neighbors p grid) : pointOK grid q := by
  rcases mem_neighbors.mp h with ⟨_, hc, rfl⟩ | ⟨_, hc, rfl⟩ | ⟨_, hc, rfl⟩ | ⟨_, hc, rfl⟩ <;>
    exact hc

theorem stepTo_orthAdj {grid : Grid} {p q : Point} (h : stepTo grid p q) : orthAdj p q := by
  rcases mem_neighbors.mp h with ⟨h0, _, rfl⟩ | ⟨h0, _, rfl⟩ | ⟨h0, _, rfl⟩ | ⟨h0, _, rfl⟩
  · exact Or.inr ⟨rfl, Or.inr (by omega)⟩
  · exact Or.inr ⟨rfl, Or.inl rfl⟩
  · exact Or.inl ⟨rfl, Or.inr (by omega)⟩
  · exact Or.inl ⟨rfl, Or.inl rfl⟩

theorem pointOK_bounds {grid : Grid} {p : Point} (h : pointOK grid p) :
    ∃ row, grid[p.1]? = some row ∧ row ∈ grid ∧ p.2 < row.length := by
  obtain ⟨row, hrow, hv⟩ := cellZero_iff.mp h
  refine ⟨row, hrow, List.getElem?_mem hrow, ?_⟩
  by_contra hlen
  rw [List.getElem?_eq_none_iff.mpr (by omega)] at hv
  cases hv

theorem stepTo_iff_of_rect {grid : Grid} (hrect : Rectangular grid) {p q : Point} :
    stepTo grid p q ↔ orthAdj p q ∧ pointOK grid q := by
  constructor
  · intro h
    exact ⟨stepTo_orthAdj h, pointOK_of_mem_neighbors h⟩
  · rintro ⟨hadj, hok⟩
    obtain ⟨row, hrow, hrowmem, hylt⟩ := pointOK_bounds hok
    have hxlt : q.1 < grid.length := by
      by_contra hc
      rw [List.getElem?_eq_none_iff.mpr (by omega)] at hrow
      cases hrow
    have hrlen : row.length = (grid.headD []).length := hrect row hrowmem
    obtain ⟨px, py⟩ := p
    obtain ⟨qx, qy⟩ := q
    apply mem_neighbors.mpr
    rcases hadj with ⟨hx, hy | hy⟩ | ⟨hy, hx | hx⟩
    all_goals simp only at hx hy hylt hxlt
    · -- Right move: qy = py + 1
      refine Or.inr (Or.inr (Or.inr ⟨by omega, ?_, by simp; omega⟩))
      have : (px, qy) = (qx, qy) := by simp [hx]
      rw [show px = qx from hx, show py + 1 = qy from hy]
      exact hok
    · -- Left move: qy + 1 = py
      refine Or.inr (Or.inr (Or.inl ⟨by omega, ?_, by simp; omega⟩))
      rw [show px = qx from hx, show py - 1 = qy by omega]
      exact hok
    · -- Down move: qx = px + 1
      refine Or.inr (Or.inl ⟨by omega, ?_, by simp; omega⟩)
      rw [show px + 1 = qx from hx, show py = qy from hy]
      exact hok
    · -- Up move: qx + 1 = px
      refine Or.inl ⟨by omega, ?_, by simp; omega⟩
      rw [show px - 1 = qx by omega, show py = qy from hy]
      exact hok

theorem heuristic_stepTo {grid : Grid} {p q : Point} (h : stepTo grid p q) (goal : Point) :
    heuristic p goal ≤ heuristic q goal + 1 := by
  rcases mem_neighbors.mp h with ⟨h0, _, rfl⟩ | ⟨h0, _, rfl⟩ | ⟨h0, _, rfl⟩ | ⟨h0, _, rfl⟩ <;>
    · simp only [heuristic]
      omega

/-! ## Walks and shortest distances -/

theorem validPath_singleton {grid : Grid} (s : Point) : ValidPath grid s s [s] :=
  ⟨rfl, rfl, List.chain'_singleton s⟩

theorem reach_zero {grid : Grid} (s : Point) : reach grid s s 0 :=
  ⟨[s], validPath_singleton s, rfl⟩

theorem validPath_head_mem {grid : Grid} {s t : Point} {l : List Point}
    (h : ValidPath grid s t l) : s ∈ l :=
  List.mem_of_mem_head? (h.1 ▸ rfl)

theorem validPath_last_mem {grid : Grid} {s t : Point} {l : List Point}
    (h : ValidPath grid s t l) : t ∈ l :=
  List.mem_of_mem_getLast? (h.2.1 ▸ rfl)

theorem validPath_split {grid : Grid} {s t : Point} {l l₁ l₂ : List Point} {q : Point}
    (h : ValidPath grid s t l) (heq : l = l₁ ++ q :: l₂) :
    ValidPath grid s q (l₁ ++ [q]) ∧ ValidPath grid q t (q :: l₂) := by
  obtain ⟨hh, hl, hc⟩ := h
  subst heq
  rw [List.chain'_append] at hc
  obtain ⟨hc1, hc2, hj⟩ := hc
  constructor
  · refine ⟨?_, by simp, ?_⟩
    · cases l₁ with
      | nil => simpa using hh
      | cons a l₁' => simpa using hh
    · rw [List.chain'_append]
      refine ⟨hc1, List.chain'_singleton q, ?_⟩
      intro x hx y hy
      simp only [List.head?_cons, Option.mem_def, Option.some.injEq] at hy
      subst hy
      exact hj x hx q (by simp)
  · refine ⟨rfl, ?_, hc2⟩
    rw [List.getLast?_append_of_ne_nil l₁ (by simp)] at hl
    exact hl

theorem validPath_splice {grid : Grid} {s q t : Point} {L1 L2 : List Point}
    (h1 : ValidPath grid s q L1) (h2 : ValidPath grid q t L2) :
    ValidPath grid s t (L1 ++ L2.tail) ∧
      (L1 ++ L2.tail).length + 1 = L1.length + L2.length := by
  obtain ⟨h1h, h1l, h1c⟩ := h1
  obtain ⟨h2h, h2l, h2c⟩ := h2
  have hL1ne : L1 ≠ [] := by
    intro hnil
    rw [hnil] at h1h
    cases h1h
  cases L2 with
  | nil => cases h2h
  | cons q' l₂ =>
      have hq : q' = q := by simpa using h2h
      subst hq
      cases l₂ with
      | nil =>
          have hqt : q' = t := by simpa using h2l
          subst hqt
          refine ⟨⟨by simpa using h1h, by simpa using h1l, by simpa using h1c⟩, by simp⟩
      | cons b l₂' =>
          refine ⟨⟨?_, ?_, ?_⟩, by simp; omega⟩
          · rw [List.head?_append_of_ne_nil L1 hL1ne]
            exact h1h
          · show (L1 ++ b :: l₂').getLast? = some t
            rw [List.getLast?_append_of_ne_nil L1 (by simp)]
            rw [List.getLast?_cons_cons] at h2l
            exact h2l
          · show List.Chain' (stepTo grid) (L1 ++ b :: l₂')
            rw [List.chain'_append]
            refine ⟨h1c, (List.chain'_cons'.mp h2c).2, ?_⟩
            intro x hx y hy
            have hxq : q' = x := by rw [h1l] at hx; simpa using hx
            have hyb : b = y := by simpa using hy
            subst hxq; subst hyb
            exact (List.chain'_cons.mp h2c).1

theorem reach_dist_exists {grid : Grid} {s t : Point} {n : Nat} (h : reach grid s t n) :
    ∃ d, isDist grid s t d := by
  classical
  have hne : {m | reach grid s t m}.Nonempty := ⟨n, h⟩
  exact ⟨sInf {m | reach grid s t m}, Nat.sInf_mem hne, fun m hm => Nat.sInf_le hm⟩

theorem isDist_unique {grid : Grid} {s t : Point} {d d' : Nat}
    (h : isDist grid s t d) (h' : isDist grid s t d') : d = d' :=
  le_antisymm (h.2 d' h'.1) (h'.2 d h.1)

/-- A prefix of a shortest walk is a shortest walk to its own endpoint. -/
theorem shortest_split {grid : Grid} {s t : Point} {l l₁ l₂ : List Point} {q : Point}
    (hv : ValidPath grid s t l) (hmin : ∀ m, reach grid s t m → l.length ≤ m + 1)
    (heq : l = l₁ ++ q :: l₂) : isDist grid s q l₁.length := by
  obtain ⟨hpre, hsuf⟩ := validPath_split hv heq
  constructor
  · exact ⟨l₁ ++ [q], hpre, by simp⟩
  · intro m hm
    obtain ⟨L, hL, hLlen⟩ := hm
    obtain ⟨hsp, hsplen⟩ := validPath_splice hL hsuf
    have hlen2 : (L ++ (q :: l₂).tail).length = m + l₂.length + 1 := by
      simp only [List.tail_cons, List.length_append, List.length_cons] at hsplen ⊢
      omega
    have := hmin (m + l₂.length) ⟨L ++ (q :: l₂).tail, hsp, hlen2⟩
    have hll : l.length = l₁.length + 1 + l₂.length := by
      rw [heq]; simp; omega
    omega

/-- Walking from the finalized region to an unfinalized coordinate crosses
the boundary: some coordinate of the walk is the first one not finalized. -/
theorem exists_crossing {cl : List Point} :
    ∀ (l : List Point) {t : Point}, l.getLast? = some t → t ∉ cl →
      ∃ l₁ q l₂, l = l₁ ++ q :: l₂ ∧ (∀ p ∈ l₁, p ∈ cl) ∧ q ∉ cl := by
  intro l
  induction l with
  | nil => intro t h; cases h
  | cons a tl ih =>
      intro t hlast ht
      by_cases ha : a ∈ cl
      · cases tl with
        | nil =>
            have hta : t = a := by simpa using hlast.symm
            exact absurd (hta ▸ ha) ht
        | cons b tl' =>
            have hlast' : (b :: tl').getLast? = some t := by
              rwa [List.getLast?_cons_cons] at hlast
            obtain ⟨l₁, q, l₂, hteq, hall, hq⟩ := ih hlast' ht
            refine ⟨a :: l₁, q, l₂, by rw [hteq]; rfl, ?_, hq⟩
            intro p hp
            rcases List.mem_cons.mp hp with rfl | hp
            · exact ha
            · exact hall p hp
      · exact ⟨[], a, tl, rfl, by simp, ha⟩

/-- Manhattan consistency along a walk: the estimate at the first
coordinate exceeds the estimate at the last by at most the edge count. -/
theorem heuristic_le_of_validPath {grid : Grid} (goal : Point) :
    ∀ {l : List Point} {a b : Point}, ValidPath grid a b l →
      heuristic a goal ≤ l.length - 1 + heuristic b goal := by
  intro l
  induction l with
  | nil => intro a b h; cases h.1
  | cons x tl ih =>
      intro a b h
      obtain ⟨hh, hl, hc⟩ := h
      have hx : x = a := by simpa using hh
      subst hx
      cases tl with
      | nil =>
          have hab : x = b := by simpa using hl
          subst hab
          simp
      | cons y tl' =>
          have hstep : stepTo grid x y := (List.chain'_cons.mp hc).1
          have hrest : ValidPath grid y b (y :: tl') :=
            ⟨rfl, by rwa [List.getLast?_cons_cons] at hl, (List.chain'_cons.mp hc).2⟩
          have h1 := ih hrest
          have h2 := heuristic_stepTo hstep goal
          simp only [List.length_cons] at h1 ⊢
          omega

/-! ## Consequences of node well-formedness -/

theorem nodeWF_validPath {grid : Grid} {start goal : Point} {n : Node}
    (h : nodeWF grid start goal n) :
    ValidPath grid start n.point n.rpath.reverse ∧ n.rpath.reverse.length = n.g + 1 := by
  obtain ⟨hh, hl, hc, hlen, _, _⟩ := h
  refine ⟨⟨?_, ?_, ?_⟩, by simpa using hlen⟩
  · rw [List.head?_reverse]; exact hl
  · rw [List.getLast?_reverse]; exact hh
  · rw [List.chain'_reverse]; exact hc

theorem nodeWF_reach {grid : Grid} {start goal : Point} {n : Node}
    (h : nodeWF grid start goal n) : reach grid start n.point n.g := by
  obtain ⟨hv, hlen⟩ := nodeWF_validPath h
  exact ⟨n.rpath.reverse, hv, hlen⟩

theorem mkStart_wf (grid : Grid) (start goal : Point) :
    nodeWF grid start goal (mkStart start goal) := by
  refine ⟨rfl, rfl, List.chain'_singleton start, rfl, rfl, ?_⟩
  simp [mkStart]

/-! ## Properties of one neighbour relaxation -/

theorem relaxOne_closed {goal : Point} {cur : Node} {cl : List Point} {os : List Node}
    {nbr : Point} (hcl : nbr ∈ cl) : relaxOne goal cur cl os nbr = os := by
  rw [relaxOne, if_pos hcl]

theorem relaxOne_push {goal : Point} {cur : Node} {cl : List Point} {os : List Node}
    {nbr : Point} (hcl : nbr ∉ cl) (hf : os.find? (fun n => n.point == nbr) = none) :
    relaxOne goal cur cl os nbr =
      os ++ [{ point := nbr, g := cur.g + 1, h := heuristic nbr goal,
               f := cur.g + 1 + heuristic nbr goal, rpath := nbr :: cur.rpath }] := by
  rw [relaxOne, if_neg hcl]
  simp only [hf]

theorem relaxOne_update {goal : Point} {cur : Node} {cl : List Point} {os : List Node}
    {nbr : Point} {m0 : Node} (hcl : nbr ∉ cl)
    (hf : os.find? (fun n => n.point == nbr) = some m0) (hg : cur.g + 1 < m0.g) :
    relaxOne goal cur cl os nbr =
      replaceFirst nbr
        (fun n => { n with g := cur.g + 1, f := cur.g + 1 + n.h, rpath := nbr :: cur.rpath })
        os := by
  rw [relaxOne, if_neg hcl]
  simp only [hf, if_pos hg]

theorem relaxOne_keep {goal : Point} {cur : Node} {cl : List Point} {os : List Node}
    {nbr : Point} {m0 : Node} (hcl : nbr ∉ cl)
    (hf : os.find? (fun n => n.point == nbr) = some m0) (hg : ¬ cur.g + 1 < m0.g) :
    relaxOne goal cur cl os nbr = os := by
  rw [relaxOne, if_neg hcl]
  simp only [hf, if_neg hg]

theorem relax_mem {goal : Point} {cur : Node} {cl : List Point} {os : List Node}
    {nbr : Point} {n' : Node} (h : n' ∈ relaxOne goal cur cl os nbr) :
    n' ∈ os ∨
      (nbr ∉ cl ∧ n'.point = nbr ∧ n'.g = cur.g + 1 ∧ n'.rpath = nbr :: cur.rpath ∧
        n'.f = n'.g + n'.h ∧
        (n'.h = heuristic nbr goal ∨ ∃ m ∈ os, m.point = nbr ∧ n'.h = m.h)) := by
  by_cases hcl : nbr ∈ cl
  · rw [relaxOne_closed hcl] at h
    exact Or.inl h
  · cases hf : os.find? (fun n => n.point == nbr) with
    | none =>
        rw [relaxOne_push hcl hf] at h
        rcases List.mem_append.mp h with h | h
        · exact Or.inl h
        · simp only [List.mem_singleton] at h
          subst h
          exact Or.inr ⟨hcl, rfl, rfl, rfl, rfl, Or.inl rfl⟩
    | some m0 =>
        by_cases hg : cur.g + 1 < m0.g
        · rw [relaxOne_update hcl hf hg] at h
          rcases mem_replaceFirst h with h | ⟨n, hn, hnp, hn'⟩
          · exact Or.inl h
          · subst hn'
            exact Or.inr ⟨hcl, hnp, rfl, rfl, rfl, Or.inr ⟨n, hn, hnp, rfl⟩⟩
        · rw [relaxOne_keep hcl hf hg] at h
          exact Or.inl h

theorem relax_map_point {goal : Point} {cur : Node} {cl : List Point} {os : List Node}
    {nbr : Point} :
    (relaxOne goal cur cl os nbr).map Node.point = os.map Node.point ∨
      ((relaxOne goal cur cl os nbr).map Node.point = os.map Node.point ++ [nbr] ∧
        nbr ∉ os.map Node.point) := by
  by_cases hcl : nbr ∈ cl
  · rw [relaxOne_closed hcl]
    exact Or.inl rfl
  · cases hf : os.find? (fun n => n.point == nbr) with
    | none =>
        rw [relaxOne_push hcl hf]
        refine Or.inr ⟨by simp, ?_⟩
        intro hmem
        obtain ⟨n, hn, hnp⟩ := List.mem_map.mp hmem
        exact absurd (by simpa using hnp) (List.find?_eq_none.mp hf n hn)
    | some m0 =>
        by_cases hg : cur.g + 1 < m0.g
        · rw [relaxOne_update hcl hf hg]
          exact Or.inl (replaceFirst_map_point nbr _ os (fun n => rfl))
        · rw [relaxOne_keep hcl hf hg]
          exact Or.inl rfl

theorem relax_nodup {goal : Point} {cur : Node} {cl : List Point} {os : List Node}
    {nbr : Point} (h : (os.map Node.point).Nodup) :
    ((relaxOne goal cur cl os nbr).map Node.point).Nodup := by
  rcases @relax_map_point goal cur cl os nbr with
    heq | ⟨heq, hnmem⟩
  · rw [heq]; exact h
  · rw [heq]
    simp [List.nodup_append, h, hnmem]

theorem replaceFirst_exists_match {p : Point} {upd : Node → Node} :
    ∀ {l : List Node}, (∃ m ∈ l, m.point = p) →
      ∃ m ∈ l, m.point = p ∧ upd m ∈ replaceFirst p upd l := by
  intro l
  induction l with
  | nil => rintro ⟨m, hm, _⟩; cases hm
  | cons a tl ih =>
      rintro ⟨m, hm, hmp⟩
      by_cases ha : a.point = p
      · exact ⟨a, List.mem_cons_self _ _, ha, by rw [replaceFirst, if_pos ha]; simp⟩
      · have hmtl : m ∈ tl := by
          rcases List.mem_cons.mp hm with rfl | h
          · exact absurd hmp ha
          · exact h
        obtain ⟨m', hm', hm'p, hres⟩ := ih ⟨m, hmtl, hmp⟩
        exact ⟨m', List.mem_cons_of_mem _ hm', hm'p,
          by rw [replaceFirst, if_neg ha]; exact List.mem_cons_of_mem _ hres⟩

theorem relax_preserve {goal : Point} {cur : Node} {cl : List Point} {os : List Node}
    {nbr : Point} (hnd : (os.map Node.point).Nodup) {n : Node} (hn : n ∈ os) :
    ∃ n' ∈ relaxOne goal cur cl os nbr, n'.point = n.point ∧ n'.g ≤ n.g ∧ n'.h = n.h := by
  by_cases hcl : nbr ∈ cl
  · rw [relaxOne_closed hcl]
    exact ⟨n, hn, rfl, le_refl _, rfl⟩
  · cases hf : os.find? (fun n => n.point == nbr) with
    | none =>
        rw [relaxOne_push hcl hf]
        exact ⟨n, List.mem_append_left _ hn, rfl, le_refl _, rfl⟩
    | some m0 =>
        by_cases hg : cur.g + 1 < m0.g
        · rw [relaxOne_update hcl hf hg]
          obtain ⟨n', hn', hcase⟩ := @replaceFirst_exists nbr
            (fun m =>
              { m with g := cur.g + 1, f := cur.g + 1 + m.h, rpath := nbr :: cur.rpath }) os n hn
          rcases hcase with rfl | ⟨hnp, rfl⟩
          · exact ⟨n', hn', rfl, le_refl _, rfl⟩
          · have hm0 : m0 ∈ os := List.mem_of_find?_eq_some hf
            have hm0p : m0.point = nbr := by simpa using List.find?_some hf
            have hnm0 : n = m0 := List.inj_on_of_nodup_map hnd hn hm0 (by rw [hnp, hm0p])
            subst hnm0
            exact ⟨_, hn', rfl, le_of_lt hg, rfl⟩
        · rw [relaxOne_keep hcl hf hg]
          exact ⟨n, hn, rfl, le_refl _, rfl⟩

theorem relax_cover {goal : Point} {cur : Node} {cl : List Point} {os : List Node}
    {nbr : Point} (hcl : nbr ∉ cl) :
    ∃ n' ∈ relaxOne goal cur cl os nbr, n'.point = nbr ∧ n'.g ≤ cur.g + 1 := by
  cases hf : os.find? (fun n => n.point == nbr) with
  | none =>
      rw [relaxOne_push hcl hf]
      exact ⟨_, List.mem_append_right _ (List.mem_singleton.mpr rfl), rfl, le_refl _⟩
  | some m0 =>
      have hm0 : m0 ∈ os := List.mem_of_find?_eq_some hf
      have hm0p : m0.point = nbr := by simpa using List.find?_some hf
      by_cases hg : cur.g + 1 < m0.g
      · rw [relaxOne_update hcl hf hg]
        obtain ⟨m, hm, hmp, hres⟩ := replaceFirst_exists_match ⟨m0, hm0, hm0p⟩
        exact ⟨_, hres, hmp, le_refl _⟩
      · rw [relaxOne_keep hcl hf hg]
        exact ⟨m0, hm0, hm0p, by omega⟩

/-! ## Properties of the whole neighbour fold -/

theorem fold_mem {goal : Point} {cur : Node} {cl : List Point} :
    ∀ {nbrs : List Point} {os : List Node} {n' : Node},
      n' ∈ nbrs.foldl (relaxOne goal cur cl) os →
      n' ∈ os ∨ (n'.point ∈ nbrs ∧ n'.point ∉ cl) := by
  intro nbrs
  induction nbrs with
  | nil => intro os n' h; exact Or.inl h
  | cons a rest ih =>
      intro os n' h
      rcases ih h with h' | ⟨hp, hcl⟩
      · rcases relax_mem h' with h'' | ⟨hcl, hp, _⟩
        · exact Or.inl h''
        · exact Or.inr ⟨hp ▸ List.mem_cons_self _ _, hp ▸ hcl⟩
      · exact Or.inr ⟨List.mem_cons_of_mem _ hp, hcl⟩

theorem fold_wf {grid : Grid} {start goal : Point} {cur : Node} {cl : List Point}
    (hcur : nodeWF grid start goal cur) :
    ∀ {nbrs : List Point} {os : List Node},
      (∀ n ∈ os, nodeWF grid start goal n) →
      (∀ q ∈ nbrs, stepTo grid cur.point q) →
      ∀ n' ∈ nbrs.foldl (relaxOne goal cur cl) os, nodeWF grid start goal n' := by
  have hone : ∀ {os : List Node} {nbr : Point},
      (∀ n ∈ os, nodeWF grid start goal n) → stepTo grid cur.point nbr →
      ∀ n' ∈ relaxOne goal cur cl os nbr, nodeWF grid start goal n' := by
    intro os nbr hos hstep n' h
    rcases relax_mem h with h' | ⟨_, hp, hg, hr, hfh, hh⟩
    · exact hos n' h'
    · have hcrne : cur.rpath ≠ [] := by
        intro hnil
        have := hcur.1
        rw [hnil] at this
        cases this
      have hhval : n'.h = heuristic nbr goal := by
        rcases hh with hh | ⟨m, hm, hmp, hh⟩
        · exact hh
        · rw [hh, (hos m hm).2.2.2.2.1, hmp]
      refine ⟨?_, ?_, ?_, ?_, ?_, hfh⟩
      · rw [hr, hp]; rfl
      · rw [hr]
        cases hcr : cur.rpath with
        | nil => exact absurd hcr hcrne
        | cons b tl =>
            rw [List.getLast?_cons_cons]
            have := hcur.2.1
            rwa [hcr] at this
      · rw [hr]
        refine List.chain'_cons'.mpr ⟨?_, hcur.2.2.1⟩
        intro y hy
        have hyc : y = cur.point := by
          have := hcur.1
          rw [Option.mem_def, this] at hy
          simpa using hy.symm
        subst hyc
        exact hstep
      · rw [hr, hg]
        simp [hcur.2.2.2.1]
      · rw [hp, hhval]
  intro nbrs
  induction nbrs with
  | nil => intro os hos _ n' h; exact hos n' h
  | cons a rest ih =>
      intro os hos hstep n' h
      exact ih (hone hos (hstep a (List.mem_cons_self _ _)))
        (fun q hq => hstep q (List.mem_cons_of_mem _ hq)) n' h

theorem fold_nodup {goal : Point} {cur : Node} {cl : List Point} :
    ∀ {nbrs : List Point} {os : List Node}, (os.map Node.point).Nodup →
      ((nbrs.foldl (relaxOne goal cur cl) os).map Node.point).Nodup := by
  intro nbrs
  induction nbrs with
  | nil => intro os h; exact h
  | cons a rest ih => intro os h; exact ih (relax_nodup h)

theorem fold_persist {goal : Point} {cur : Node} {cl : List Point} :
    ∀ {nbrs : List Point} {os : List Node}, (os.map Node.point).Nodup →
      ∀ {n : Node}, n ∈ os →
      ∃ n' ∈ nbrs.foldl (relaxOne goal cur cl) os, n'.point = n.point ∧ n'.g ≤ n.g := by
  intro nbrs
  induction nbrs with
  | nil => intro os _ n hn; exact ⟨n, hn, rfl, le_refl _⟩
  | cons a rest ih =>
      intro os hnd n hn
      obtain ⟨n'', hn'', hp'', hg'', _⟩ := @relax_preserve goal cur cl os a hnd n hn
      obtain ⟨n', hn', hp', hg'⟩ := ih (relax_nodup hnd) hn''
      exact ⟨n', hn', hp'.trans hp'', le_trans hg' hg''⟩

theorem fold_cover {goal : Point} {cur : Node} {cl : List Point} :
    ∀ {nbrs : List Point} {os : List Node}, (os.map Node.point).Nodup →
      ∀ {nbr : Point}, nbr ∈ nbrs → nbr ∉ cl →
      ∃ n' ∈ nbrs.foldl (relaxOne goal cur cl) os, n'.point = nbr ∧ n'.g ≤ cur.g + 1 := by
  intro nbrs
  induction nbrs with
  | nil => intro os _ nbr h; cases h
  | cons a rest ih =>
      intro os hnd nbr hmem hcl
      by_cases hna : nbr = a
      · subst hna
        obtain ⟨n'', hn'', hp'', hg''⟩ := @relax_cover goal cur cl os nbr hcl
        obtain ⟨n', hn', hp', hg'⟩ := fold_persist (relax_nodup hnd) hn''
        exact ⟨n', hn', hp'.trans hp'', le_trans hg' hg''⟩
      · have hrest : nbr ∈ rest := by
          rcases List.mem_cons.mp hmem with h | h
          · exact absurd h hna
          · exact h
        exact ih (relax_nodup hnd) hrest hcl

/-! ## Inversion of one loop iteration -/

theorem stepA_next_eq {grid : Grid} {goal : Point} {os os' : List Node} {cl cl' : List Point}
    {v : Point} (h : stepA grid goal os cl = .next os' cl' v) :
    ∃ cur rest, sortByF os = cur :: rest ∧ ¬ cur.point = goal ∧
      os' = (neighbors cur.point grid).foldl (relaxOne goal cur (cur.point :: cl)) rest ∧
      cl' = cur.point :: cl ∧ v = cur.point := by
  unfold stepA at h
  cases hs : sortByF os with
  | nil => rw [hs] at h; exact StepOut.noConfusion h
  | cons cur rest =>
      rw [hs] at h
      by_cases hg : cur.point = goal
      · simp only [if_pos hg] at h
        exact StepOut.noConfusion h
      · simp only [if_neg hg] at h
        injection h with h1 h2 h3
        exact ⟨cur, rest, rfl, hg, h1.symm, h2.symm, h3.symm⟩

theorem stepA_found_eq {grid : Grid} {goal : Point} {os : List Node} {cl : List Point}
    {p : List Point} {v : Point} (h : stepA grid goal os cl = .found p v) :
    ∃ cur rest, sortByF os = cur :: rest ∧ cur.point = goal ∧
      p = cur.rpath.reverse ∧ v = cur.point := by
  unfold stepA at h
  cases hs : sortByF os with
  | nil => rw [hs] at h; exact StepOut.noConfusion h
  | cons cur rest =>
      rw [hs] at h
      by_cases hg : cur.point = goal
      · simp only [if_pos hg] at h
        injection h with h1 h2
        exact ⟨cur, rest, rfl, hg, h1.symm, h2.symm⟩
      · simp only [if_neg hg] at h
        exact StepOut.noConfusion h

theorem stepA_exhausted_eq {grid : Grid} {goal : Point} {os : List Node} {cl : List Point}
    (h : stepA grid goal os cl = .exhausted) : os = [] := by
  unfold stepA at h
  cases hs : sortByF os with
  | nil =>
      have hperm : List.Perm ([] : List Node) os := hs ▸ sortByF_perm os
      exact hperm.symm.eq_nil
  | cons cur rest =>
      rw [hs] at h
      by_cases hg : cur.point = goal
      · simp only [if_pos hg] at h
        exact StepOut.noConfusion h
      · simp only [if_neg hg] at h
        exact StepOut.noConfusion h

/-! ## The search invariant -/

/-- The invariant maintained by the main loop.  Every open node carries a
genuine walk of its recorded cost; open coordinates are unique and disjoint
from the finalized set; finalized coordinates have confirmed shortest
distances; and every boundary edge out of the finalized region is covered
by an open node whose cost is at most one more than the finalized shortest
distance of its interior endpoint. -/
structure Inv (grid : Grid) (start goal : Point) (openSet : List Node)
    (closed : List Point) : Prop where
  wf : ∀ n ∈ openSet, nodeWF grid start goal n
  nodup : (openSet.map Node.point).Nodup
  cnodup : closed.Nodup
  disj : ∀ n ∈ openSet, n.point ∉ closed
  opts : ∀ n ∈ openSet, n.point = start ∨ pointOK grid n.point
  cpts : ∀ p ∈ closed, p = start ∨ pointOK grid p
  cdist : ∀ p ∈ closed, ∃ d, isDist grid start p d
  frontier : ∀ p ∈ closed, ∀ q, stepTo grid p q → q ∉ closed →
      ∀ dp, isDist grid start p dp → ∃ n ∈ openSet, n.point = q ∧ n.g ≤ dp + 1
  startAvail : (∃ n ∈ openSet, n.point = start ∧ n.g = 0) ∨ start ∈ closed
  ngoal : goal ∉ closed

theorem inv_init (grid : Grid) (start goal : Point) :
    Inv grid start goal [mkStart start goal] [] := by
  refine ⟨?_, ?_, ?_, ?_, ?_, ?_, ?_, ?_, ?_, ?_⟩
  · intro n hn
    rw [List.mem_singleton] at hn
    exact hn ▸ mkStart_wf grid start goal
  · simp
  · simp
  · simp
  · intro n hn
    rw [List.mem_singleton] at hn
    exact Or.inl (by rw [hn]; rfl)
  · simp
  · simp
  · simp
  · exact Or.inl ⟨mkStart start goal, List.mem_singleton.mpr rfl, rfl, rfl⟩
  · simp

/-- If some coordinate `t` at shortest distance `d` is not yet finalized,
the open set holds a node whose combined priority is at most
`d + heuristic t goal` (the key step of the A* optimality argument, using
consistency of the Manhattan estimate). -/
theorem inv_near_node {grid : Grid} {start goal : Point} {os : List Node} {cl : List Point}
    (inv : Inv grid start goal os cl) {t : Point} {d : Nat}
    (hd : isDist grid start t d) (ht : t ∉ cl) :
    ∃ n ∈ os, n.g + heuristic n.point goal ≤ d + heuristic t goal := by
  obtain ⟨⟨l, hl, hllen⟩, hmin⟩ := hd
  have hminlen : ∀ m, reach grid start t m → l.length ≤ m + 1 := by
    intro m hm
    have := hmin m hm
    omega
  obtain ⟨l₁, q, l₂, heq, hallcl, hq⟩ := exists_crossing l hl.2.1 ht
  have hsplit := validPath_split hl heq
  have hqdist : isDist grid start q l₁.length := shortest_split hl hminlen heq
  have hhq : heuristic q goal ≤ (q :: l₂).length - 1 + heuristic t goal :=
    heuristic_le_of_validPath goal hsplit.2
  have hlen : l.length = l₁.length + l₂.length + 1 := by
    rw [heq]
    simp only [List.length_append, List.length_cons]
    omega
  have hnode : ∃ n ∈ os, n.point = q ∧ n.g = l₁.length := by
    cases hl1 : l₁ with
    | nil =>
        have hqs : q = start := by
          have hh := hl.1
          rw [heq, hl1] at hh
          simpa using hh
        rcases inv.startAvail with ⟨n, hn, hnp, hng⟩ | hsc
        · exact ⟨n, hn, by rw [hnp, hqs], by rw [hng]; rfl⟩
        · exact absurd (hqs ▸ hsc) hq
    | cons a l₁' =>
        have hl1ne : l₁ ≠ [] := by rw [hl1]; exact List.cons_ne_nil a l₁'
        have hdecomp : l₁.dropLast ++ [l₁.getLast hl1ne] = l₁ :=
          List.dropLast_append_getLast hl1ne
        set pp := l₁.getLast hl1ne with hpp
        have hppcl : pp ∈ cl := hallcl pp (List.getLast_mem hl1ne)
        have heq2 : l = l₁.dropLast ++ pp :: (q :: l₂) := by
          rw [← hdecomp] at heq
          rw [heq]
          simp
        have hsplit2 := validPath_split hl heq2
        have hstep : stepTo grid pp q := by
          have hc := hsplit2.2.2.2
          exact (List.chain'_cons.mp hc).1
        have hppdist : isDist grid start pp l₁.dropLast.length :=
          shortest_split hl hminlen heq2
        obtain ⟨n, hn, hnp, hng⟩ :=
          inv.frontier pp hppcl q hstep hq _ hppdist
        have hreachn : reach grid start n.point n.g := nodeWF_reach (inv.wf n hn)
        have hge : l₁.length ≤ n.g := hqdist.2 n.g (hnp ▸ hreachn)
        have hdl : l₁.dropLast.length = l₁.length - 1 := List.length_dropLast l₁
        have hl1pos : 0 < l₁.length := by rw [hl1]; simp
        have hlen1 : l₁.length = (a :: l₁').length := by rw [hl1]
        exact ⟨n, hn, hnp, by omega⟩
  obtain ⟨n, hn, hnp, hng⟩ := hnode
  refine ⟨n, hn, ?_⟩
  rw [hnp, hng]
  simp only [List.length_cons] at hhq
  omega

/-- The node removed from the sorted frontier carries the true shortest
distance to its coordinate. -/
theorem pop_optimal {grid : Grid} {start goal : Point} {os : List Node} {cl : List Point}
    {cur : Node} {rest : List Node} (inv : Inv grid start goal os cl)
    (hs : sortByF os = cur :: rest) : isDist grid start cur.point cur.g := by
  have hcur : cur ∈ os := mem_sortByF.mp (hs ▸ List.mem_cons_self cur rest)
  have hwf := inv.wf cur hcur
  have hreach : reach grid start cur.point cur.g := nodeWF_reach hwf
  obtain ⟨d, hd⟩ := reach_dist_exists hreach
  have hcle : cur.g ≤ d := by
    obtain ⟨n, hn, hle⟩ := inv_near_node inv hd (inv.disj cur hcur)
    have hmin : cur.f ≤ n.f := sortByF_head_le hs hn
    have hnwf := inv.wf n hn
    have hnf : n.f = n.g + heuristic n.point goal := by
      rw [hnwf.2.2.2.2.2, hnwf.2.2.2.2.1]
    have hcf : cur.f = cur.g + heuristic cur.point goal := by
      rw [hwf.2.2.2.2.2, hwf.2.2.2.2.1]
    omega
  have heqd : cur.g = d := le_antisymm hcle (hd.2 _ hreach)
  rw [heqd]
  exact hd

/-- Open/closed disjointness and open-set uniqueness are preserved by one
loop iteration (proved without the rest of the invariant). -/
theorem stepA_disj_aux {grid : Grid} {goal : Point} {os os' : List Node}
    {cl cl' : List Point} {v : Point}
    (hdisj : ∀ n ∈ os, n.point ∉ cl) (hnd : (os.map Node.point).Nodup)
    (h : stepA grid goal os cl = .next os' cl' v) :
    (∀ n ∈ os', n.point ∉ cl') ∧ (os'.map Node.point).Nodup := by
  obtain ⟨cur, rest, hs, hng, hos', hcl', hv⟩ := stepA_next_eq h
  subst hos' hcl' hv
  have hcur : cur ∈ os := mem_sortByF.mp (hs ▸ List.mem_cons_self cur rest)
  have hsortnodup : ((cur :: rest).map Node.point).Nodup := by
    have hperm : List.Perm ((sortByF os).map Node.point) (os.map Node.point) :=
      (sortByF_perm os).map Node.point
    have hnd2 := hperm.nodup_iff.mpr hnd
    rwa [hs] at hnd2
  have hrestnodup : (rest.map Node.point).Nodup := by
    simp only [List.map_cons, List.nodup_cons] at hsortnodup
    exact hsortnodup.2
  have hcurnotin : cur.point ∉ rest.map Node.point := by
    simp only [List.map_cons, List.nodup_cons] at hsortnodup
    exact hsortnodup.1
  have hrestsub : ∀ n ∈ rest, n ∈ os := fun n hn =>
    mem_sortByF.mp (hs ▸ List.mem_cons_of_mem cur hn)
  constructor
  · intro n' hn'
    rcases fold_mem hn' with hn' | ⟨_, hncl⟩
    · intro hmem
      rcases List.mem_cons.mp hmem with heq2 | hmem
      · exact hcurnotin (heq2 ▸ List.mem_map_of_mem Node.point hn')
      · exact hdisj n' (hrestsub n' hn') hmem
    · exact hncl
  · exact fold_nodup hrestnodup

/-- One loop iteration preserves the full search invariant. -/
theorem stepA_preserves_inv {grid : Grid} {start goal : Point} {os os' : List Node}
    {cl cl' : List Point} {v : Point} (inv : Inv grid start goal os cl)
    (h : stepA grid goal os cl = .next os' cl' v) : Inv grid start goal os' cl' := by
  have hdn := stepA_disj_aux inv.disj inv.nodup h
  obtain ⟨cur, rest, hs, hng, hos', hcl', hv⟩ := stepA_next_eq h
  subst hos' hcl' hv
  have hcur : cur ∈ os := mem_sortByF.mp (hs ▸ List.mem_cons_self cur rest)
  have hsortnodup : ((cur :: rest).map Node.point).Nodup := by
    have hperm : List.Perm ((sortByF os).map Node.point) (os.map Node.point) :=
      (sortByF_perm os).map Node.point
    have hnd2 := hperm.nodup_iff.mpr inv.nodup
    rwa [hs] at hnd2
  have hrestnodup : (rest.map Node.point).Nodup := by
    simp only [List.map_cons, List.nodup_cons] at hsortnodup
    exact hsortnodup.2
  have hrestsub : ∀ n ∈ rest, n ∈ os := fun n hn =>
    mem_sortByF.mp (hs ▸ List.mem_cons_of_mem cur hn)
  have hpopt : isDist grid start cur.point cur.g := pop_optimal inv hs
  have hcurcl : cur.point ∉ cl := inv.disj cur hcur
  refine ⟨?_, hdn.2, ?_, hdn.1, ?_, ?_, ?_, ?_, ?_, ?_⟩
  · exact fold_wf (inv.wf cur hcur) (fun n hn => inv.wf n (hrestsub n hn)) (fun q hq => hq)
  · exact List.nodup_cons.mpr ⟨hcurcl, inv.cnodup⟩
  · intro n' hn'
    rcases fold_mem hn' with hn' | ⟨hmem, _⟩
    · exact inv.opts n' (hrestsub n' hn')
    · exact Or.inr (pointOK_of_mem_neighbors hmem)
  · intro p hp
    rcases List.mem_cons.mp hp with rfl | hp
    · exact inv.opts cur hcur
    · exact inv.cpts p hp
  · intro p hp
    rcases List.mem_cons.mp hp with rfl | hp
    · exact ⟨cur.g, hpopt⟩
    · exact inv.cdist p hp
  · intro p hp q hstep hqcl dp hdp
    rcases List.mem_cons.mp hp with rfl | hp
    · have hdpe : dp = cur.g := isDist_unique hdp hpopt
      obtain ⟨n', hn', hp', hg'⟩ := fold_cover hrestnodup hstep hqcl
      exact ⟨n', hn', hp', by omega⟩
    · have hqcl2 : q ∉ cl := fun hc => hqcl (List.mem_cons_of_mem _ hc)
      obtain ⟨n, hn, hnp, hng2⟩ := inv.frontier p hp q hstep hqcl2 dp hdp
      have hnrest : n ∈ rest := by
        have hmem : n ∈ cur :: rest := hs ▸ mem_sortByF.mpr hn
        rcases List.mem_cons.mp hmem with rfl | hmem
        · exfalso
          apply hqcl
          rw [← hnp]
          exact List.mem_cons_self _ _
        · exact hmem
      obtain ⟨n', hn', hp', hg'⟩ := fold_persist hrestnodup hnrest
      exact ⟨n', hn', hp'.trans hnp, le_trans hg' hng2⟩
  · by_cases hsc : start ∈ cur.point :: cl
    · exact Or.inr hsc
    · rcases inv.startAvail with ⟨n, hn, hnp, hng0⟩ | hsc2
      · have hnrest : n ∈ rest := by
          have hmem : n ∈ cur :: rest := hs ▸ mem_sortByF.mpr hn
          rcases List.mem_cons.mp hmem with rfl | hmem
          · exfalso
            apply hsc
            rw [← hnp]
            exact List.mem_cons_self _ _
          · exact hmem
        obtain ⟨n', hn', hp', hg'⟩ := fold_persist hrestnodup hnrest
        exact Or.inl ⟨n', hn', hp'.trans hnp, by omega⟩
      · exact absurd (List.mem_cons_of_mem _ hsc2) hsc
  · intro hmem
    rcases List.mem_cons.mp hmem with heq2 | hmem
    · exact hng heq2.symm
    · exact inv.ngoal hmem

/-! ## Counting cells: the loop cannot run out of fuel -/

/-- All coordinates that denote a present cell of the grid. -/
def okList (grid : Grid) : List Point :=
  (List.range grid.length).flatMap
    (fun x => (List.range (grid.getD x []).length).map (fun y => (x, y)))

theorem mem_okList {grid : Grid} {p : Point} :
    p ∈ okList grid ↔ p.1 < grid.length ∧ p.2 < (grid.getD p.1 []).length := by
  obtain ⟨x, y⟩ := p
  simp only [okList, List.mem_flatMap, List.mem_range, List.mem_map, Prod.mk.injEq]
  constructor
  · rintro ⟨x', hx', y', hy', rfl, rfl⟩
    exact ⟨hx', hy'⟩
  · rintro ⟨hx, hy⟩
    exact ⟨x, hx, y, hy, rfl, rfl⟩

theorem okList_length (grid : Grid) : (okList grid).length = cellCount grid := by
  unfold okList cellCount
  rw [List.length_flatMap]
  have hmap : ∀ (g : Grid),
      (List.map (List.length ∘ fun x => (List.range (g.getD x []).length).map (fun y => (x, y)))
        (List.range g.length))
        = (List.range g.length).map (fun x => (g.getD x []).length) := by
    intro g
    apply List.map_congr_left
    intro x _
    simp
  rw [hmap]
  induction grid with
  | nil => rfl
  | cons row rest ih =>
      rw [List.length_cons, List.range_succ_eq_map]
      simp only [List.map_cons, List.map_map, List.sum_cons]
      have hshift : (List.range rest.length).map
            ((fun x => ((row :: rest).getD x []).length) ∘ Nat.succ)
          = (List.range rest.length).map (fun x => (rest.getD x []).length) := by
        apply List.map_congr_left
        intro x _
        rfl
      rw [hshift, ih]
      rfl

theorem closed_length_le {grid : Grid} {start : Point} {cl : List Point}
    (hnd : cl.Nodup) (hpts : ∀ p ∈ cl, p = start ∨ pointOK grid p) :
    cl.length ≤ cellCount grid + 1 := by
  have hsub : cl ⊆ start :: okList grid := by
    intro p hp
    rcases hpts p hp with rfl | hok
    · exact List.mem_cons_self _ _
    · refine List.mem_cons_of_mem _ (mem_okList.mpr ?_)
      obtain ⟨row, hrow, _, hlt⟩ := pointOK_bounds hok
      have hx : p.1 < grid.length := by
        by_contra hc
        rw [List.getElem?_eq_none_iff.mpr (by omega)] at hrow
        cases hrow
      refine ⟨hx, ?_⟩
      have hgd : grid.getD p.1 [] = row := by
        rw [List.getD_eq_getElem?_getD, hrow]
        rfl
      rw [hgd]
      exact hlt
  calc cl.length ≤ (start :: okList grid).length := length_le_of_nodup_subset hnd hsub
    _ = cellCount grid + 1 := by rw [List.length_cons, okList_length]

theorem loop_no_fuelOut {grid : Grid} {start goal : Point} :
    ∀ (fuel : Nat) (os : List Node) (cl : List Point), Inv grid start goal os cl →
      cellCount grid + 2 ≤ cl.length + fuel →
      (loopVis grid goal fuel os cl).1 ≠ .fuelOut := by
  intro fuel
  induction fuel with
  | zero =>
      intro os cl inv hbound
      have hle := closed_length_le inv.cnodup inv.cpts
      intro _
      omega
  | succ fuel ih =>
      intro os cl inv hbound
      cases hstep : stepA grid goal os cl with
      | exhausted => simp [loopVis, hstep]
      | found p v => simp [loopVis, hstep]
      | next os2 cl2 v =>
          have inv2 := stepA_preserves_inv inv hstep
          have hlen : cl2.length = cl.length + 1 := by
            obtain ⟨cur, rest, _, _, _, hcl', _⟩ := stepA_next_eq hstep
            rw [hcl']
            rfl
          have hres := ih os2 cl2 inv2 (by omega)
          simpa [loopVis, hstep] using hres

/-! ## The main loop: correctness, visits, callback transparency -/

theorem loop_correct {grid : Grid} {start goal : Point} :
    ∀ (fuel : Nat) (os : List Node) (cl : List Point), Inv grid start goal os cl →
      (∀ p, (loopVis grid goal fuel os cl).1 = .somePath p →
        ∃ dg, isDist grid start goal dg ∧ ValidPath grid start goal p ∧ p.length = dg + 1) ∧
      ((loopVis grid goal fuel os cl).1 = .noPath → ∀ m, ¬ reach grid start goal m) := by
  intro fuel
  induction fuel with
  | zero =>
      intro os cl inv
      exact ⟨fun p h => AOut.noConfusion h, fun h => AOut.noConfusion h⟩
  | succ fuel ih =>
      intro os cl inv
      cases hstep : stepA grid goal os cl with
      | exhausted =>
          constructor
          · intro p h
            simp [loopVis, hstep] at h
          · intro _ m hm
            have hos : os = [] := stepA_exhausted_eq hstep
            obtain ⟨d, hd⟩ := reach_dist_exists hm
            obtain ⟨n, hn, _⟩ := inv_near_node inv hd inv.ngoal
            rw [hos] at hn
            cases hn
      | found p0 v =>
          obtain ⟨cur, rest, hs, hgoal, hp0, hv⟩ := stepA_found_eq hstep
          constructor
          · intro p h
            simp only [loopVis, hstep] at h
            have hpp : p0 = p := by injection h
            have hpopt := pop_optimal inv hs
            have hwf := inv.wf cur (mem_sortByF.mp (hs ▸ List.mem_cons_self cur rest))
            obtain ⟨hvp, hvlen⟩ := nodeWF_validPath hwf
            refine ⟨cur.g, hgoal ▸ hpopt, ?_, ?_⟩
            · rw [← hpp, hp0]
              exact hgoal ▸ hvp
            · rw [← hpp, hp0]
              exact hvlen
          · intro h
            simp [loopVis, hstep] at h
      | next os2 cl2 v =>
          have inv2 := stepA_preserves_inv inv hstep
          have hres := ih os2 cl2 inv2
          constructor
          · intro p h
            simp only [loopVis, hstep] at h
            exact hres.1 p h
          · intro h
            simp only [loopVis, hstep] at h
            exact hres.2 h

theorem loop_visits {grid : Grid} {start goal : Point} :
    ∀ (fuel : Nat) (os : List Node) (cl : List Point), Inv grid start goal os cl →
      (loopVis grid goal fuel os cl).2.Nodup ∧
      (∀ p ∈ (loopVis grid goal fuel os cl).2, p ∉ cl ∧ (p = start ∨ pointOK grid p)) := by
  intro fuel
  induction fuel with
  | zero =>
      intro os cl inv
      exact ⟨List.nodup_nil, by intro p hp; cases hp⟩
  | succ fuel ih =>
      intro os cl inv
      cases hstep : stepA grid goal os cl with
      | exhausted =>
          constructor
          · simp [loopVis, hstep]
          · intro p hp
            simp [loopVis, hstep] at hp
      | found p0 v =>
          obtain ⟨cur, rest, hs, hgoal, hp0, hv⟩ := stepA_found_eq hstep
          have hcur : cur ∈ os := mem_sortByF.mp (hs ▸ List.mem_cons_self cur rest)
          constructor
          · simp [loopVis, hstep]
          · intro p hp
            simp only [loopVis, hstep, List.mem_singleton] at hp
            subst hp
            rw [hv]
            exact ⟨inv.disj cur hcur, inv.opts cur hcur⟩
      | next os2 cl2 v =>
          obtain ⟨cur, rest, hs, hng, hos2, hcl2, hv⟩ := stepA_next_eq hstep
          have hcur : cur ∈ os := mem_sortByF.mp (hs ▸ List.mem_cons_self cur rest)
          have inv2 := stepA_preserves_inv inv hstep
          have hres := ih os2 cl2 inv2
          have hvcl : v ∉ cl := by
            rw [hv]
            exact inv.disj cur hcur
          have hrecnotv : ∀ p ∈ (loopVis grid goal fuel os2 cl2).2, p ≠ v := by
            intro p hp hpv
            have hthis := (hres.2 p hp).1
            rw [hcl2] at hthis
            apply hthis
            rw [hpv, hv]
            exact List.mem_cons_self _ _
          constructor
          · simp only [loopVis, hstep]
            exact List.nodup_cons.mpr
              ⟨fun hmem => hrecnotv v hmem rfl, hres.1⟩
          · intro p hp
            simp only [loopVis, hstep, List.mem_cons] at hp
            rcases hp with rfl | hp
            · constructor
              · exact hvcl
              · rw [hv]
                exact inv.opts cur hcur
            · refine ⟨?_, (hres.2 p hp).2⟩
              have := (hres.2 p hp).1
              rw [hcl2] at this
              exact fun hc => this (List.mem_cons_of_mem _ hc)

theorem loopCb_eq {σ : Type} (cb : Point → σ → σ) (grid : Grid) (goal : Point) :
    ∀ (fuel : Nat) (os : List Node) (cl : List Point) (st : σ),
      loopCb cb grid goal fuel os cl st =
        ((loopVis grid goal fuel os cl).1,
          (loopVis grid goal fuel os cl).2.foldl (fun a p => cb p a) st) := by
  intro fuel
  induction fuel with
  | zero => intro os cl st; rfl
  | succ fuel ih =>
      intro os cl st
      cases hstep : stepA grid goal os cl with
      | exhausted => simp [loopCb, loopVis, hstep]
      | found p v => simp [loopCb, loopVis, hstep]
      | next os2 cl2 v => simp [loopCb, loopVis, hstep, ih]

/-! ## Bridging code walks and specification walks -/

theorem specWalk_validPath {grid : Grid} {s t : Point} {l : List Point}
    (hrect : Rectangular grid) (h : SpecWalk grid s t l) : ValidPath grid s t l := by
  obtain ⟨hh, hl, hc, hall⟩ := h
  exact ⟨hh, hl, chain'_imp_mem
    (fun a b _ hb hadj => (stepTo_iff_of_rect hrect).mpr ⟨hadj, hall b hb⟩) hc⟩

theorem validPath_specWalk {grid : Grid} {s t : Point} {l : List Point}
    (hs : pointOK grid s) (h : ValidPath grid s t l) : SpecWalk grid s t l := by
  obtain ⟨hh, hl, hc⟩ := h
  refine ⟨hh, hl, chain'_imp_mem (fun a b _ _ hst => stepTo_orthAdj hst) hc, ?_⟩
  intro p hp
  rcases chain'_mem hc hp with hhd | ⟨a, _, hst⟩
  · rw [hh] at hhd
    obtain rfl : s = p := Option.some.inj hhd
    exact hs
  · exact pointOK_of_mem_neighbors hst

theorem specSteps_iff_reach {grid : Grid} {s t : Point} (hrect : Rectangular grid)
    (hs : pointOK grid s) (n : Nat) : SpecSteps grid s t n ↔ reach grid s t n :=
  ⟨fun ⟨l, hw, hlen⟩ => ⟨l, specWalk_validPath hrect hw, hlen⟩,
   fun ⟨l, hv, hlen⟩ => ⟨l, validPath_specWalk hs hv, hlen⟩⟩

/-! ## Search results at the level of `astar` -/

theorem astarRun_no_fuelOut (grid : Grid) (s g : Point) :
    (astarRun grid s g).1 ≠ .fuelOut := by
  apply loop_no_fuelOut (totalFuel grid) _ _ (inv_init grid s g)
  simp [totalFuel]

theorem astar_eq_some_iff {grid : Grid} {s g : Point} {p : List Point} :
    astar grid s g = some p ↔ (astarRun grid s g).1 = .somePath p := by
  unfold astar
  cases h : (astarRun grid s g).1 <;> simp

theorem astar_eq_none_iff {grid : Grid} {s g : Point} :
    astar grid s g = none ↔ (astarRun grid s g).1 = .noPath := by
  have hnf := astarRun_no_fuelOut grid s g
  unfold astar
  cases h : (astarRun grid s g).1 with
  | somePath p => simp
  | noPath => simp
  | fuelOut => exact absurd h hnf

theorem astar_correct_some {grid : Grid} {s g : Point} {p : List Point}
    (h : astar grid s g = some p) :
    ∃ dg, isDist grid s g dg ∧ ValidPath grid s g p ∧ p.length = dg + 1 :=
  (loop_correct (totalFuel grid) [mkStart s g] [] (inv_init grid s g)).1 p
    (astar_eq_some_iff.mp h)

theorem astar_none_unreach {grid : Grid} {s g : Point} (h : astar grid s g = none) :
    ∀ m, ¬ reach grid s g m :=
  (loop_correct (totalFuel grid) [mkStart s g] [] (inv_init grid s g)).2
    (astar_eq_none_iff.mp h)

/-- With a blocked (or absent) goal cell distinct from the start, the goal
coordinate can never be finalized, so no path is ever returned. -/
theorem loop_blocked_goal {grid : Grid} {start goal : Point}
    (hgs : goal ≠ start) (hgok : ¬ pointOK grid goal) :
    ∀ (fuel : Nat) (os : List Node) (cl : List Point),
      (∀ n ∈ os, n.point = start ∨ pointOK grid n.point) →
      ∀ p, (loopVis grid goal fuel os cl).1 ≠ .somePath p := by
  intro fuel
  induction fuel with
  | zero => intro os cl _ p h; exact AOut.noConfusion h
  | succ fuel ih =>
      intro os cl hopts p
      cases hstep : stepA grid goal os cl with
      | exhausted => simp [loopVis, hstep]
      | found p0 v =>
          intro _
          obtain ⟨cur, rest, hs, hgoal, _, _⟩ := stepA_found_eq hstep
          have hcur : cur ∈ os := mem_sortByF.mp (hs ▸ List.mem_cons_self cur rest)
          rcases hopts cur hcur with hst | hok
          · exact hgs (hgoal ▸ hst)
          · exact hgok (hgoal ▸ hok)
      | next os2 cl2 v =>
          obtain ⟨cur, rest, hs, _, hos2, _, _⟩ := stepA_next_eq hstep
          have hrestsub : ∀ n ∈ rest, n ∈ os := fun n hn =>
            mem_sortByF.mp (hs ▸ List.mem_cons_of_mem cur hn)
          have hopts2 : ∀ n ∈ os2, n.point = start ∨ pointOK grid n.point := by
            rw [hos2]
            intro n' hn'
            rcases fold_mem hn' with hn' | ⟨hmem, _⟩
            · exact hopts n' (hrestsub n' hn')
            · exact Or.inr (pointOK_of_mem_neighbors hmem)
          intro h
          simp only [loopVis, hstep] at h
          exact ih os2 cl2 hopts2 p h

/-- In a shortest returned walk, every coordinate after the first is
entered by a step of the search relation. -/
theorem shortest_tail_step {grid : Grid} {s g : Point} {p : List Point} {dg : Nat}
    (hd : isDist grid s g dg) (hv : ValidPath grid s g p) (hlen : p.length = dg + 1) :
    ∀ q ∈ p.tail, ∃ a ∈ p, stepTo grid a q := by
  intro q hq
  rcases chain'_mem hv.2.2 (List.mem_of_mem_tail hq) with hhd | ⟨a, ha, hst⟩
  · exfalso
    rw [hv.1] at hhd
    obtain rfl : s = q := Option.some.inj hhd
    obtain ⟨t, rfl⟩ : ∃ t, p = s :: t := by
      cases hp : p with
      | nil => rw [hp] at hv; cases hv.1
      | cons a t =>
          have hha := hv.1
          rw [hp] at hha
          have : a = s := by simpa using hha
          exact ⟨t, by rw [this]⟩
    have hqt : s ∈ t := by simpa using hq
    obtain ⟨t1, t2, ht⟩ := List.append_of_mem hqt
    have heq : s :: t = (s :: t1) ++ s :: t2 := by rw [ht]; rfl
    have hsplit := validPath_split hv heq
    have hreach : reach grid s g t2.length := ⟨s :: t2, hsplit.2, by simp⟩
    have hmin := hd.2 _ hreach
    have hlen2 : (s :: t).length = t1.length + t2.length + 2 := by
      rw [ht]
      simp
      omega
    omega
  · exact ⟨a, ha, hst⟩

/-- Under rectangularity, the cells of the grid number rows times columns. -/
theorem cellCount_rect {grid : Grid} (hrect : Rectangular grid) :
    cellCount grid = grid.length * (grid.headD []).length := by
  unfold cellCount
  have hrepl : grid.map List.length =
      List.replicate (grid.map List.length).length (grid.headD []).length := by
    apply List.eq_replicate_of_mem
    intro a ha
    obtain ⟨row, hrow, rfl⟩ := List.mem_map.mp ha
    exact hrect row hrow
  rw [hrepl, List.sum_replicate, smul_eq_mul, List.length_map]

theorem mem_okList_of_inBounds {grid : Grid} {p : Point} (hrect : Rectangular grid)
    (h1 : p.1 < grid.length) (h2 : p.2 < (grid.headD []).length) :
    p ∈ okList grid := by
  refine mem_okList.mpr ⟨h1, ?_⟩
  obtain ⟨row, hrow⟩ : ∃ row, grid[p.1]? = some row := by
    cases hg : grid[p.1]? with
    | none =>
        rw [List.getElem?_eq_none_iff] at hg
        omega
    | some row => exact ⟨row, rfl⟩
  have hgd : grid.getD p.1 [] = row := by
    rw [List.getD_eq_getElem?_getD, hrow]
    rfl
  rw [hgd, hrect row (List.getElem?_mem hrow)]
  exact h2

theorem mem_okList_of_pointOK {grid : Grid} {p : Point} (hok : pointOK grid p) :
    p ∈ okList grid := by
  obtain ⟨row, hrow, _, hlt⟩ := pointOK_bounds hok
  refine mem_okList.mpr ⟨?_, ?_⟩
  · by_contra hc
    rw [List.getElem?_eq_none_iff.mpr (by omega)] at hrow
    cases hrow
  · have hgd : grid.getD p.1 [] = row := by
      rw [List.getD_eq_getElem?_getD, hrow]
      rfl
    rw [hgd]
    exact hlt

theorem neighborReads_rows_lt {grid : Grid} {p : Point} (hp : p.1 < grid.length) :
    ∀ rc ∈ neighborReads p grid, rc.1 < grid.length := by
  intro rc hrc
  simp only [neighborReads, List.mem_append, mem_ite_singleton] at hrc
  rcases hrc with ((⟨h, he⟩ | ⟨h, he⟩) | ⟨h, he⟩) | ⟨h, he⟩
  · rw [he]; show p.1 - 1 < grid.length; omega
  · rw [he]; show p.1 + 1 < grid.length; omega
  · rw [he]; show p.1 < grid.length; omega
  · rw [he]; show p.1 < grid.length; omega

theorem pointOK_row_lt {grid : Grid} {p : Point} (h : pointOK grid p) :
    p.1 < grid.length := by
  obtain ⟨row, hrow, _, _⟩ := pointOK_bounds h
  by_contra hc
  rw [List.getElem?_eq_none_iff.mpr (by omega)] at hrow
  cases hrow

instance (os : List Node) (cl : List Point) : Decidable (DisjInv os cl) :=
  inferInstanceAs (Decidable ((∀ n ∈ os, n.point ∉ cl) ∧ (os.map Node.point).Nodup))

/-! ## The claims -/

/-- Claim C1: on a rectangular grid with in-bounds, passable start and
goal, any non-null path returned by `astar` has length minus one equal to
the true minimum number of orthogonal unit steps from start to goal
through passable cells. -/
theorem astar_shortest_c1 (grid : Grid) (s g : Point) (p : List Point)
    (hrect : Rectangular grid) (hs : pointOK grid s) (_hg : pointOK grid g)
    (hret : astar grid s g = some p) :
    SpecSteps grid s g (p.length - 1) ∧
      ∀ n, SpecSteps grid s g n → p.length - 1 ≤ n := by
  obtain ⟨dg, hd, hv, hlen⟩ := astar_correct_some hret
  constructor
  · have heq : p.length - 1 = dg := by omega
    rw [heq]
    exact (specSteps_iff_reach hrect hs dg).mpr hd.1
  · intro n hn
    have := hd.2 n ((specSteps_iff_reach hrect hs n).mp hn)
    omega

theorem astar_shortest_c1_witness :
    Rectangular [[0,0],[0,0]] ∧ pointOK [[0,0],[0,0]] (0,0) ∧ pointOK [[0,0],[0,0]] (1,1) ∧
    astar [[0,0],[0,0]] (0,0) (1,1) = some [(0,0),(1,0),(1,1)] ∧
    (SpecSteps [[0,0],[0,0]] (0,0) (1,1) (([(0,0),(1,0),(1,1)] : List Point).length - 1) ∧
      ∀ n, SpecSteps [[0,0],[0,0]] (0,0) (1,1) n →
        ([(0,0),(1,0),(1,1)] : List Point).length - 1 ≤ n) :=
  ⟨by decide, by decide, by decide, by decide,
    astar_shortest_c1 [[0,0],[0,0]] (0,0) (1,1) [(0,0),(1,0),(1,1)]
      (by decide) (by decide) (by decide) (by decide)⟩

/-- Claim C2 counterexample: the routine does not validate the start cell,
so on a grid whose start cell is blocked it returns a path whose first
coordinate is a blocked cell, refuting the claim that every coordinate of
a returned path denotes a passable cell. -/
theorem astar_path_c2_cex :
    astar [[1,0],[0,0]] (0,0) (1,1) = some [(0,0),(1,0),(1,1)] ∧
    ((0,0) : Point) ∈ ([(0,0),(1,0),(1,1)] : List Point) ∧
    ¬ pointOK [[1,0],[0,0]] (0,0) := by decide

/-- Claim C2 (amended): every non-null path returned by `astar` begins at
start, ends at goal, moves by exactly one unit along exactly one axis at
each step, and every coordinate after the first denotes a passable
in-bounds cell; when the start cell itself is passable, every coordinate
does. -/
theorem astar_path_c2_amended (grid : Grid) (s g : Point) (p : List Point)
    (hret : astar grid s g = some p) :
    p.head? = some s ∧ p.getLast? = some g ∧ List.Chain' orthAdj p ∧
      (∀ q ∈ p.tail, pointOK grid q) ∧
      (pointOK grid s → ∀ q ∈ p, pointOK grid q) := by
  obtain ⟨dg, hd, hv, hlen⟩ := astar_correct_some hret
  obtain ⟨hh, hl, hc⟩ := hv
  refine ⟨hh, hl, chain'_imp_mem (fun a b _ _ hst => stepTo_orthAdj hst) hc, ?_, ?_⟩
  · intro q hq
    obtain ⟨a, _, hst⟩ := shortest_tail_step hd ⟨hh, hl, hc⟩ hlen q hq
    exact pointOK_of_mem_neighbors hst
  · intro hsok q hq
    rcases chain'_mem hc hq with hhd | ⟨a, _, hst⟩
    · rw [hh] at hhd
      obtain rfl : s = q := Option.some.inj hhd
      exact hsok
    · exact pointOK_of_mem_neighbors hst

theorem astar_path_c2_witness :
    astar [[0,0],[0,0]] (0,0) (1,1) = some [(0,0),(1,0),(1,1)] ∧
    (([(0,0),(1,0),(1,1)] : List Point).head? = some (0,0) ∧
      ([(0,0),(1,0),(1,1)] : List Point).getLast? = some (1,1) ∧
      List.Chain' orthAdj ([(0,0),(1,0),(1,1)] : List Point) ∧
      (∀ q ∈ ([(0,0),(1,0),(1,1)] : List Point).tail, pointOK [[0,0],[0,0]] q) ∧
      (pointOK [[0,0],[0,0]] (0,0) →
        ∀ q ∈ ([(0,0),(1,0),(1,1)] : List Point), pointOK [[0,0],[0,0]] q)) :=
  ⟨by decide, astar_path_c2_amended [[0,0],[0,0]] (0,0) (1,1) [(0,0),(1,0),(1,1)] (by decide)⟩

/-- Claim C3 counterexample: a blocked start cell does not force a null
result: the search still expands outward from it (the neighbour test never
inspects the current cell), and a blocked cell equal to both start and
goal is returned as a single-element path. -/
theorem astar_blocked_c3_cex :
    (¬ pointOK [[1,0],[0,0]] (0,0) ∧ astar [[1,0],[0,0]] (0,0) (1,1) ≠ none) ∧
    (¬ pointOK [[1]] (0,0) ∧ astar [[1]] (0,0) (0,0) ≠ none) := by decide

/-- Claim C3 (amended): if the start's row index is within the grid (the
condition under which every row the search reads exists, so neighbour
enumeration never dereferences a missing row), start ≠ goal, and the goal
cell is blocked (non-zero) or absent, `astar` returns null; a blocked
start cell does not by itself force a null result.  For a start whose row
index is out of range the source instead throws a TypeError while
enumerating neighbours, so no null result is promised there. -/
theorem astar_blocked_c3_amended (grid : Grid) (s g : Point)
    (hrow : s.1 < grid.length) (hne : s ≠ g) (hg : ¬ pointOK grid g) :
    astar grid s g = none ∧
    0 < grid.length ∧
    (∀ q ∈ (astarRun grid s g).2, ∀ rc ∈ neighborReads q grid, rc.1 < grid.length) := by
  have hnf := astarRun_no_fuelOut grid s g
  have hvis := loop_visits (totalFuel grid) [mkStart s g] [] (inv_init grid s g)
  refine ⟨?_, by omega, ?_⟩
  · have hns : ∀ p, (astarRun grid s g).1 ≠ .somePath p := by
      intro p
      exact loop_blocked_goal (fun h => hne h.symm) hg (totalFuel grid) [mkStart s g] []
        (fun n hn => by
          rw [List.mem_singleton] at hn
          exact Or.inl (by rw [hn]; rfl)) p
    cases h : (astarRun grid s g).1 with
    | somePath p => exact absurd h (hns p)
    | noPath => exact astar_eq_none_iff.mpr h
    | fuelOut => exact absurd h hnf
  · intro q hq
    have hqb : q.1 < grid.length := by
      rcases (hvis.2 q hq).2 with rfl | hok
      · exact hrow
      · exact pointOK_row_lt hok
    exact neighborReads_rows_lt hqb

theorem astar_blocked_c3_witness :
    ((0,0) : Point).1 < ([[0,1]] : Grid).length ∧
    ((0,0) : Point) ≠ (0,1) ∧ ¬ pointOK [[0,1]] (0,1) ∧
    (astar [[0,1]] (0,0) (0,1) = none ∧
      0 < ([[0,1]] : Grid).length ∧
      (∀ q ∈ (astarRun [[0,1]] (0,0) (0,1)).2,
        ∀ rc ∈ neighborReads q [[0,1]], rc.1 < ([[0,1]] : Grid).length)) :=
  ⟨by decide, by decide, by decide,
    astar_blocked_c3_amended [[0,1]] (0,0) (0,1) (by decide) (by decide) (by decide)⟩

/-- Claim C4 counterexample: with in-bounds start and goal on a
rectangular grid but a blocked start cell, `astar` returns a non-null path
although the goal is not reachable through passable cells, refuting the
claimed equivalence between the null result and unreachability. -/
theorem astar_total_c4_cex :
    Rectangular [[1,0],[0,0]] ∧
    astar [[1,0],[0,0]] (0,0) (1,1) ≠ none ∧
    (∀ n, ¬ SpecSteps [[1,0],[0,0]] (0,0) (1,1) n) := by
  refine ⟨by decide, by decide, ?_⟩
  rintro n ⟨l, ⟨hh, _, _, hall⟩, _⟩
  have hmem : ((0,0) : Point) ∈ l := List.mem_of_mem_head? (hh ▸ rfl)
  exact absurd (hall (0,0) hmem) (by decide)

/-- Claim C4 (amended): on a rectangular grid with in-bounds start and
goal where the start cell is passable, `astar` is total — the loop never
exhausts its fuel and every row accessed during every neighbour
enumeration it performs exists — and it returns null exactly when the
goal is not reachable from start via orthogonal unit steps through
passable cells. -/
theorem astar_total_c4_amended (grid : Grid) (s g : Point)
    (hrect : Rectangular grid) (hs : pointOK grid s)
    (_hg : g.1 < grid.length ∧ g.2 < (grid.headD []).length) :
    (astarRun grid s g).1 ≠ .fuelOut ∧
    0 < grid.length ∧
    (∀ q ∈ (astarRun grid s g).2, ∀ rc ∈ neighborReads q grid, rc.1 < grid.length) ∧
    (astar grid s g = none ↔ ∀ n, ¬ SpecSteps grid s g n) := by
  have hvis := loop_visits (totalFuel grid) [mkStart s g] [] (inv_init grid s g)
  refine ⟨astarRun_no_fuelOut grid s g, ?_, ?_, ?_⟩
  · have := pointOK_row_lt hs
    omega
  · intro q hq
    have hqb : q.1 < grid.length := by
      rcases (hvis.2 q hq).2 with rfl | hok
      · exact pointOK_row_lt hs
      · exact pointOK_row_lt hok
    exact neighborReads_rows_lt hqb
  · constructor
    · intro hnone n hspec
      exact astar_none_unreach hnone n ((specSteps_iff_reach hrect hs n).mp hspec)
    · intro hunreach
      cases hsome : astar grid s g with
      | none => rfl
      | some p =>
          obtain ⟨dg, hd, _, _⟩ := astar_correct_some hsome
          exact absurd ((specSteps_iff_reach hrect hs dg).mpr hd.1) (hunreach dg)

theorem astar_total_c4_witness :
    Rectangular [[0,0],[0,0]] ∧ pointOK [[0,0],[0,0]] (0,0) ∧
    (((1,1) : Point).1 < ([[0,0],[0,0]] : Grid).length ∧
      ((1,1) : Point).2 < (([[0,0],[0,0]] : Grid).headD []).length) ∧
    ((astarRun [[0,0],[0,0]] (0,0) (1,1)).1 ≠ .fuelOut ∧
      0 < ([[0,0],[0,0]] : Grid).length ∧
      (∀ q ∈ (astarRun [[0,0],[0,0]] (0,0) (1,1)).2,
        ∀ rc ∈ neighborReads q [[0,0],[0,0]], rc.1 < ([[0,0],[0,0]] : Grid).length) ∧
      (astar [[0,0],[0,0]] (0,0) (1,1) = none ↔
        ∀ n, ¬ SpecSteps [[0,0],[0,0]] (0,0) (1,1) n)) :=
  ⟨by decide, by decide, ⟨by decide, by decide⟩,
    astar_total_c4_amended [[0,0],[0,0]] (0,0) (1,1) (by decide) (by decide)
      ⟨by decide, by decide⟩⟩

/-- Claim C5: when start equals goal and that cell is passable and in
bounds, `astar` returns the single-element path holding that coordinate
(the equality test fires on the very first finalization). -/
theorem astar_self_c5 (grid : Grid) (s : Point) (_hok : pointOK grid s) :
    astar grid s s = some [s] := by
  unfold astar astarRun totalFuel
  have h1 : stepA grid s [mkStart s s] [] = .found [s] s := by
    unfold stepA
    have hsort : sortByF [mkStart s s] = [mkStart s s] := rfl
    rw [hsort]
    simp [mkStart]
  have h2 : cellCount grid + 2 = (cellCount grid + 1) + 1 := rfl
  rw [h2]
  simp [loopVis, h1]

theorem astar_self_c5_witness :
    pointOK [[0]] (0,0) ∧ astar [[0]] (0,0) (0,0) = some [(0,0)] :=
  ⟨by decide, astar_self_c5 [[0]] (0,0) (by decide)⟩

/-- Claim C6: the `onVisit` callback is invoked exactly at the finalized
coordinates, once each and in finalization order (any callback run equals
the pure run paired with a fold of the callback over the recorded visit
sequence, so the returned path never depends on the callback), and with an
in-bounds start on a rectangular grid every visited coordinate lies inside
the grid. -/
theorem astar_onvisit_c6 (grid : Grid) (s g : Point)
    (hrect : Rectangular grid)
    (hin : s.1 < grid.length ∧ s.2 < (grid.headD []).length) :
    (∀ (σ : Type) (cb : Point → σ → σ) (st : σ),
        astarCb cb grid s g st =
          ((astarRun grid s g).1, (astarRun grid s g).2.foldl (fun a q => cb q a) st)) ∧
    (astarRun grid s g).2.Nodup ∧
    (∀ q ∈ (astarRun grid s g).2, q.1 < grid.length ∧ q.2 < (grid.headD []).length) := by
  have hvis := loop_visits (totalFuel grid) [mkStart s g] [] (inv_init grid s g)
  refine ⟨?_, hvis.1, ?_⟩
  · intro σ cb st
    exact loopCb_eq cb grid g (totalFuel grid) [mkStart s g] [] st
  · intro q hq
    rcases (hvis.2 q hq).2 with rfl | hok
    · exact hin
    · obtain ⟨row, hrow, hmem, hlt⟩ := pointOK_bounds hok
      refine ⟨pointOK_row_lt hok, ?_⟩
      rw [← hrect row hmem]
      exact hlt

theorem astar_onvisit_c6_witness :
    Rectangular [[0,0],[0,0]] ∧
    (((0,0) : Point).1 < ([[0,0],[0,0]] : Grid).length ∧
      ((0,0) : Point).2 < (([[0,0],[0,0]] : Grid).headD []).length) ∧
    astarCb (fun q l => l ++ [q]) [[0,0],[0,0]] (0,0) (1,1) [] =
      ((astarRun [[0,0],[0,0]] (0,0) (1,1)).1,
        (astarRun [[0,0],[0,0]] (0,0) (1,1)).2.foldl (fun a q => a ++ [q]) []) ∧
    (astarRun [[0,0],[0,0]] (0,0) (1,1)).2.Nodup := by
  refine ⟨by decide, ⟨by decide, by decide⟩, ?_, ?_⟩
  · exact (astar_onvisit_c6 [[0,0],[0,0]] (0,0) (1,1) (by decide) ⟨by decide, by decide⟩).1
      (List Point) (fun q l => l ++ [q]) []
  · exact (astar_onvisit_c6 [[0,0],[0,0]] (0,0) (1,1) (by decide) ⟨by decide, by decide⟩).2.1

/-- Claim C7: with in-bounds start and goal on a rectangular grid the
search terminates: the loop never exhausts its fuel bound, each coordinate
is finalized at most once, and the number of iterations (finalized
coordinates) is at most the number of grid cells.  Path reconstruction is
the reversal of the finite stored predecessor list, so it terminates by
construction. -/
theorem astar_terminates_c7 (grid : Grid) (s g : Point) (hrect : Rectangular grid)
    (hins : s.1 < grid.length ∧ s.2 < (grid.headD []).length)
    (_hing : g.1 < grid.length ∧ g.2 < (grid.headD []).length) :
    (astarRun grid s g).1 ≠ .fuelOut ∧
    (astarRun grid s g).2.length ≤ grid.length * (grid.headD []).length ∧
    (astarRun grid s g).2.Nodup := by
  have hvis := loop_visits (totalFuel grid) [mkStart s g] [] (inv_init grid s g)
  refine ⟨astarRun_no_fuelOut grid s g, ?_, hvis.1⟩
  have hsub : (astarRun grid s g).2 ⊆ okList grid := by
    intro q hq
    rcases (hvis.2 q hq).2 with rfl | hok
    · exact mem_okList_of_inBounds hrect hins.1 hins.2
    · exact mem_okList_of_pointOK hok
  calc (astarRun grid s g).2.length ≤ (okList grid).length :=
        length_le_of_nodup_subset hvis.1 hsub
    _ = cellCount grid := okList_length grid
    _ = grid.length * (grid.headD []).length := cellCount_rect hrect

theorem astar_terminates_c7_witness :
    Rectangular [[0,0],[0,0]] ∧
    ((astarRun [[0,0],[0,0]] (0,0) (1,1)).1 ≠ .fuelOut ∧
      (astarRun [[0,0],[0,0]] (0,0) (1,1)).2.length ≤
        ([[0,0],[0,0]] : Grid).length * (([[0,0],[0,0]] : Grid).headD []).length ∧
      (astarRun [[0,0],[0,0]] (0,0) (1,1)).2.Nodup) :=
  ⟨by decide,
    astar_terminates_c7 [[0,0],[0,0]] (0,0) (1,1) (by decide)
      ⟨by decide, by decide⟩ ⟨by decide, by decide⟩⟩

/-- Claim C8: initially, and across every continuing loop iteration, no
coordinate is simultaneously in the open set and the closed set, and the
open set holds at most one node per coordinate. -/
theorem astar_disjoint_c8 (grid : Grid) (s g : Point) :
    DisjInv [mkStart s g] [] ∧
    (∀ (os os' : List Node) (cl cl' : List Point) (v : Point),
      DisjInv os cl → stepA grid g os cl = .next os' cl' v → DisjInv os' cl') := by
  refine ⟨⟨by simp, by simp⟩, ?_⟩
  intro os os' cl cl' v hd hstep
  exact stepA_disj_aux hd.1 hd.2 hstep

theorem astar_disjoint_c8_witness :
    DisjInv [mkStart (0,0) (1,1)] [] ∧
    DisjInv [⟨(1,0),1,1,2,[(1,0),(0,0)]⟩, ⟨(0,1),1,1,2,[(0,1),(0,0)]⟩] [(0,0)] :=
  ⟨(astar_disjoint_c8 [[0,0],[0,0]] (0,0) (1,1)).1,
    (astar_disjoint_c8 [[0,0],[0,0]] (0,0) (1,1)).2
      [mkStart (0,0) (1,1)]
      [⟨(1,0),1,1,2,[(1,0),(0,0)]⟩, ⟨(0,1),1,1,2,[(0,1),(0,0)]⟩]
      [] [(0,0)] (0,0) (by decide) (by decide)⟩

/-- Claim C9: `astar` is deterministic: for a fixed grid/start/goal the
outcome and the sequence of `onVisit` invocations are the same across
invocations and never depend on the callback or its state, and frontier
ties on the combined priority are broken stably — sorting preserves the
relative order of equal-priority entries (the embedded counterpart of
JavaScript's stable sort), with removal from the front of the sorted
order. -/
theorem astar_deterministic_c9 (grid : Grid) (s g : Point) :
    (∀ (σ₁ σ₂ : Type) (cb₁ : Point → σ₁ → σ₁) (cb₂ : Point → σ₂ → σ₂) (st₁ : σ₁) (st₂ : σ₂),
        (astarCb cb₁ grid s g st₁).1 = (astarCb cb₂ grid s g st₂).1 ∧
        (astarCb cb₁ grid s g st₁).2 =
          (astarRun grid s g).2.foldl (fun a q => cb₁ q a) st₁) ∧
    (∀ (l : List Node) (k : Nat),
        (sortByF l).filter (fun n => n.f == k) = l.filter (fun n => n.f == k)) ∧
    (∀ l : List Node, (sortByF l).Pairwise (fun a b => a.f ≤ b.f)) := by
  refine ⟨?_, sortByF_filter, sortByF_sorted⟩
  intro σ₁ σ₂ cb₁ cb₂ st₁ st₂
  constructor
  · show (loopCb cb₁ grid g (totalFuel grid) [mkStart s g] [] st₁).1 =
      (loopCb cb₂ grid g (totalFuel grid) [mkStart s g] [] st₂).1
    rw [loopCb_eq, loopCb_eq]
  · show (loopCb cb₁ grid g (totalFuel grid) [mkStart s g] [] st₁).2 = _
    rw [loopCb_eq]
    rfl

/-- Claim C10 counterexample: on a jagged grid the Right-neighbour read
is guarded by the first row's length, not the accessed row's, so the
enumeration performs a read beyond the actual bounds of the accessed
row. -/
theorem neighbors_reads_c10_cex :
    ((1,1) : Nat × Nat) ∈ neighborReads (1,0) [[0,0],[0]] ∧
      ¬ ((1 : Nat) < (([[0,0],[0]] : Grid).getD 1 []).length) := by decide

/-- Claim C10 (amended): during neighbour enumeration, vertical reads use
the current column without any column-bound check and horizontal reads
validate the column only against the first row's length, so on jagged
grids a read may fall beyond the accessed row's actual length; but any
cell whose value is not exactly 0 — including such a missing cell — is
treated as blocked, so every reported neighbour is a present, zero-valued
cell. -/
theorem neighbors_reads_c10_amended (grid : Grid) :
    (∀ p q, q ∈ neighbors p grid → ∃ row, grid[q.1]? = some row ∧ row[q.2]? = some 0) ∧
    (∀ p r c, (r, c) ∈ neighborReads p grid →
      (c = p.2 ∧ (r + 1 = p.1 ∨ r = p.1 + 1)) ∨
      (r = p.1 ∧ (c + 1 = p.2 ∨ (c = p.2 + 1 ∧ p.2 < (grid.headD []).length - 1)))) := by
  constructor
  · intro p q h
    exact cellZero_iff.mp (pointOK_of_mem_neighbors h)
  · intro p r c hrc
    simp only [neighborReads, List.mem_append, mem_ite_singleton] at hrc
    rcases hrc with ((⟨h, he⟩ | ⟨h, he⟩) | ⟨h, he⟩) | ⟨h, he⟩
    · simp only [Prod.mk.injEq] at he
      exact Or.inl ⟨he.2, Or.inl (by omega)⟩
    · simp only [Prod.mk.injEq] at he
      exact Or.inl ⟨he.2, Or.inr (by omega)⟩
    · simp only [Prod.mk.injEq] at he
      exact Or.inr ⟨he.1, Or.inl (by omega)⟩
    · simp only [Prod.mk.injEq] at he
      exact Or.inr ⟨he.1, Or.inr ⟨by omega, h⟩⟩

theorem neighbors_reads_c10_witness :
    (((1,0) : Point) ∈ neighbors (0,0) [[0,0],[0,0]]) ∧
    (∃ row, ([[0,0],[0,0]] : Grid)[(1 : Nat)]? = some row ∧ row[(0 : Nat)]? = some 0) :=
  ⟨by decide,
    (neighbors_reads_c10_amended [[0,0],[0,0]]).1 (0,0) (1,0) (by decide)⟩

end Maze
